import Mathlib

/-!
Verification development for the Cassandra2Aerospike SSTable merge engine.

Shallow embedding of the repository's core code:
  * `Buffer.cpp` byte readers (`read_bytes`, `read_unsigned_vint`, `read_vint`,
    `read_string`, `read_int`, `read_longlong`, `read_short`),
  * `SSTable.cpp` `OldSStable` row/column state machine,
  * `CassandraParser.cpp` merge iterator (`next`, `next_record`,
    `find_first_row_matches`, `find_first_column_matches`,
    `choose_latest_match`, `update_tombstones`),
  * the `shared_ptr` sharing semantics of `SStable::data_buffer`
    under `duplicate()` (`SSTable.hpp`).

Byte strings are `List Nat` (each element one byte), machine integers are
`Nat`/`Int` with explicit wrapping where the C++ code can overflow.
-/

namespace C2A

/-- A byte string (`std::string` contents / `const uint8_t *` slices). -/
abbrev Bytes := List Nat

/-- The int64 sentinel `SStable::STILL_ACTIVE = 0x8000000000000000`
(that bit pattern read as a signed 64-bit value, i.e. `INT64_MIN`). -/
def STILL_ACTIVE : Int := -(2 ^ 63)

def two63 : Int := 2 ^ 63

def two64 : Int := 2 ^ 64

/-- Reinterpret an unsigned value (below `2^64`) as a signed two's-complement
64-bit integer, as C++ does when assigning `uint64_t` to `int64_t`. -/
def toInt64 (n : Nat) : Int :=
  let m : Int := (n : Int) % two64
  if m < two63 then m else m - two64

/-- Wrap an integer into signed 64-bit two's-complement range. -/
def wrap64 (x : Int) : Int :=
  let m := x % two64
  if m < two63 then m else m - two64

/-- Sign of `memcmp` over the common length, then the length difference:
this is the key comparison shared by `ByteOrderPartitioner::compare_token`
and the key tie-break of the other partitioners (`Partitioners.cpp`). -/
def memCmpLen : Bytes → Bytes → Int
  | [], [] => 0
  | [], _ :: _ => -1
  | _ :: _, [] => 1
  | a :: as, b :: bs => if a < b then -1 else if b < a then 1 else memCmpLen as bs

/-- `std::string operator<` (the ordering of the `std::map` used for range
tombstones in `CassandraParser::iterator::update_tombstones`): plain
lexicographic comparison over all bytes, a proper prefix being smaller. -/
def strLt : Bytes → Bytes → Bool
  | [], [] => false
  | [], _ :: _ => true
  | _ :: _, [] => false
  | a :: as, b :: bs => if a < b then true else if b < a then false else strLt as bs

/-- The bytes of a C string: everything before the first NUL terminator.
`find_first_column_matches` compares column names with
`std::strcmp(name.c_str(), ...)`, which stops at an embedded NUL. -/
def cstr (l : Bytes) : Bytes := l.takeWhile (fun b => b ≠ 0)

/-- Sign of `std::strcmp(a.c_str(), b.c_str())`. -/
def strcmpM (a b : Bytes) : Int := memCmpLen (cstr a) (cstr b)

/-! ## Buffer model (`Buffer.cpp` / `Buffer.hpp`)

Two subclasses implement `read_bytes`:
  * `UncompressedBuffer::read_bytes(n)` calls `fread(buffer, n, 1, fp)` and
    treats a `0` return as EOF.  Per the C standard `fread` returns `0` when
    its `size` argument is `0`, so a zero-length read reports EOF and yields
    a NULL pointer.
  * `CompressedBuffer::read_bytes(n)` addresses a logical uncompressed
    stream; it fails only when `file_offset + n` exceeds the total
    uncompressed length (a zero-length read succeeds).  Decompression and
    checksums only move bytes around, so the model is the logical stream.
-/

inductive BufKind where
  | uncompressed
  | compressed
deriving DecidableEq

/-- A sequential byte reader: the underlying (logical) byte stream, the
current read position, and the sticky `iseof` flag. -/
structure Buf where
  kind : BufKind
  data : Bytes
  pos : Nat
  eof : Bool
deriving DecidableEq

def mkUBuf (d : Bytes) : Buf := ⟨BufKind.uncompressed, d, 0, false⟩

def mkCBuf (d : Bytes) : Buf := ⟨BufKind.compressed, d, 0, false⟩

/-- `read_bytes(n)`: returns the next `n` bytes, or `none` at EOF.
Dispatches on the buffer variant exactly as the C++ virtual call does. -/
def readBytes (b : Buf) (n : Nat) : Option Bytes × Buf :=
  match b.kind with
  | BufKind.uncompressed =>
      -- fread(buffer, n, 1, fp) == 0 both when n == 0 and on a short read
      if n = 0 then (none, { b with eof := true })
      else if b.pos + n ≤ b.data.length then
        (some ((b.data.drop b.pos).take n), { b with pos := b.pos + n })
      else (none, { b with pos := b.data.length, eof := true })
  | BufKind.compressed =>
      if b.pos + n ≤ b.data.length then
        (some ((b.data.drop b.pos).take n), { b with pos := b.pos + n })
      else (none, { b with eof := true })

/-- `skip_bytes(n)`: both variants just advance the position
(`fseek(fp, n, SEEK_CUR)` resp. `file_offset += n_bytes`). -/
def skipBytes (b : Buf) (n : Nat) : Buf := { b with pos := b.pos + n }

def isEof (b : Buf) : Bool := b.eof

/-- Big-endian accumulation `(acc << 8) | byte`. -/
def foldBE (init : Nat) (l : Bytes) : Nat :=
  l.foldl (fun acc d => (acc <<< 8) ||| d) init

/-- Sign a big-endian `w*8`-bit pattern (w bytes) as two's complement. -/
def toSigned (w : Nat) (n : Nat) : Int :=
  if (n : Int) < 2 ^ (8 * w - 1) then (n : Int) else (n : Int) - 2 ^ (8 * w)

/-- `Buffer::read_short`: two big-endian bytes as a signed 16-bit value. -/
def readShort (b : Buf) : Int × Buf :=
  match readBytes b 2 with
  | (none, b) => (0, b)
  | (some s, b) => (toSigned 2 (foldBE 0 s), b)

/-- `Buffer::read_int`: four big-endian bytes as a signed 32-bit value. -/
def readInt (b : Buf) : Int × Buf :=
  match readBytes b 4 with
  | (none, b) => (0, b)
  | (some s, b) => (toSigned 4 (foldBE 0 s), b)

/-- `Buffer::read_longlong`: eight big-endian bytes as a signed 64-bit value. -/
def readLonglong (b : Buf) : Int × Buf :=
  match readBytes b 8 with
  | (none, b) => (0, b)
  | (some s, b) => (toSigned 8 (foldBE 0 s), b)

/-- `Buffer::read_byte` (`return *read_bytes(1);`); the C++ code would
dereference NULL at EOF, the model returns 0 there. -/
def readByte (b : Buf) : Nat × Buf :=
  match readBytes b 1 with
  | (none, b) => (0, b)
  | (some s, b) => (s.headD 0, b)

/-- The `size_t` conversion applied to a signed length before it reaches
`read_bytes` / `skip_bytes` (two's-complement reinterpretation). -/
def toSizeT (len : Int) : Nat := (len % two64).toNat

/-- `Buffer::read_string`: 16-bit length-prefixed byte string, empty on EOF. -/
def readString (b : Buf) : Bytes × Buf :=
  let (len, b) := readShort b
  if b.eof then ([], b)
  else
    match readBytes b (toSizeT len) with
    | (none, b) => ([], b)
    | (some s, b) => (s, b)

/-- `Buffer::read_data`: 32-bit length-prefixed blob. -/
def readData (b : Buf) : Option Bytes × Buf :=
  let (len, b) := readInt b
  if b.eof then (none, b)
  else
    match readBytes b (toSizeT len) with
    | (none, b) => (none, b)
    | (some s, b) => (some s, b)

/-- `Buffer::skip_data`: 32-bit length prefix, then skip that many bytes. -/
def skipData (b : Buf) : Buf :=
  let (len, b) := readInt b
  skipBytes b (toSizeT len)

/-- Count of leading one bits of the first varint byte, capped at 8: the
loop `for (; extraBytes < 8 && (*firstByte & (0x80 >> extraBytes)) != 0; ...)`. -/
def leadingOnes (f : Nat) : Nat :=
  ((List.range 8).takeWhile (fun i => f &&& (0x80 >>> i) ≠ 0)).length

/-- `Buffer::read_unsigned_vint`, line for line.  Note the fast path tests
`*firstByte < 0x7f`, so the single-byte encoding `0x7f` of 127 falls through
to the slow path and performs `read_bytes(0)`. -/
def readUnsignedVint (b : Buf) : Nat × Buf :=
  match readBytes b 1 with
  | (none, b) => (0, b)
  | (some fb, b) =>
    let f := fb.headD 0
    if f < 0x7f then (f, b)
    else
      let e := leadingOnes f
      let retval := f &&& (0xff >>> e)
      match readBytes b e with
      | (none, b) => (0, b)
      | (some ds, b) => (ds.foldl (fun acc d => (acc <<< 8) ||| d) retval, b)

/-- `Buffer::read_vint`: `int64_t n = read_unsigned_vint();
return (n << 1) ^ (n >> 63);` — the zigzag *encode* transform applied to the
already-unsigned value (`<<` wraps, `>>` is arithmetic, `^ -1` is bitwise
complement `-(x+1)`). -/
def readVint (b : Buf) : Int × Buf :=
  let (n, b) := readUnsignedVint b
  let v := toInt64 n
  let sl := wrap64 (2 * v)
  (if v < 0 then -(sl + 1) else sl, b)

/-! ## Spec-side varint encoder

The spec describes the unsigned-varint format: the count of leading 1-bits
of the first byte is the number of extra big-endian bytes, and the remaining
low bits of the first byte carry the high part of the value. -/

/-- A byte with `e` leading one bits set (`e ≤ 8`). -/
def leadMask (e : Nat) : Nat := (255 <<< (8 - e)) &&& 255

/-- `n` big-endian bytes of `x`. -/
def beBytes : Nat → Nat → Bytes
  | 0, _ => []
  | n + 1, x => ((x >>> (8 * n)) &&& 255) :: beBytes n x

/-- Encoder of the unsigned-varint format as the spec describes it
(minimal length, as Cassandra's `VIntCoding` writes it): values below 128
are one literal byte; otherwise the smallest `e` with `v < 2^(7+7e)` (or
`e = 8`) extra big-endian bytes follow a first byte of `e` leading ones and
the high bits of the value. -/
def encodeUnsignedVint (v : Nat) : Bytes :=
  if v < 128 then [v]
  else
    let e := match (List.range 8).find? (fun e => v < 2 ^ (7 + 7 * e)) with
             | some e => e
             | none => 8
    (leadMask e ||| (v >>> (8 * e))) :: beBytes e v

/-- The zigzag transform of a signed 64-bit value,
`(v << 1) XOR (v >> 63 arithmetic)` read as unsigned. -/
def zigzag (v : Int) : Nat :=
  if 0 ≤ v then (2 * v).toNat else (-(2 * v) - 1).toNat

/-- Decode of one unsigned varint from a fresh `UncompressedBuffer` holding
exactly the given bytes (the pairing named by the claim's sources). -/
def uvintRoundtrip (v : Nat) : Nat :=
  (readUnsignedVint (mkUBuf (encodeUnsignedVint v))).1

/-- C5.  Encode-then-decode with `read_unsigned_vint` over an
`UncompressedBuffer` returns the original for every sampled integer except
127: the fast path tests `*firstByte < 0x7f`, so the one-byte encoding
`0x7f` of 127 reaches the slow path with zero extra bytes, and
`UncompressedBuffer::read_bytes(0)` returns NULL (`fread` with size 0
returns 0), making the decoder return 0 instead of 127. -/
theorem c5_uvint_sample_roundtrip :
    (∀ v ∈ [0, 126, 128, 16383, 16384, 2 ^ 56 - 1, 2 ^ 56, 2 ^ 63 - 1],
      uvintRoundtrip v = v) ∧
    uvintRoundtrip 127 = 0 ∧ (0 : Nat) ≠ 127 := by
  refine ⟨?_, by decide, by decide⟩
  intro v hv
  fin_cases hv <;> decide

/-- C6.  `read_vint` does not invert the zigzag encoding: for `v = 1` the
buffer holds the unsigned-varint encoding of `zigzag 1 = 2`, and
`read_vint` returns `(2 << 1) ^ (2 >> 63) = 4`, not 1 — the code applies
the zigzag encode transform `(n << 1) ^ (n >> 63)` to the decoded unsigned
value instead of the decode transform `(n >>> 1) ^ -(n & 1)`. -/
theorem c6_read_vint_not_zigzag_decode :
    (readVint (mkUBuf (encodeUnsignedVint (zigzag 1)))).1 = 4 ∧
    (4 : Int) ≠ 1 := by
  constructor
  · decide
  · decide

/-! ## Merge iterator model (`CassandraParser.cpp`)

The merge-level claims are about `CassandraParser::iterator`, which drives
its `SStable` readers only through `next_key` / `next_token` /
`marked_for_deletion` / `next_column` / `read_column` / `read_column_data` /
`read_row`.  A reader is embedded as its stream of partitions; the current
partition's undelivered cells (the head being `next_column_info`) and the
remaining partitions.  `read_column` advances to the next cell and reports
`false` when the partition is exhausted (clearing the current name, as both
readers do); `read_row` moves to the next partition and reports `true` at
EOF.  Tokens are always computed from keys by `assign_token` right before
`compare_token`, so the partitioner is embedded as the induced key
comparison `cmp key_a key_b` standing for
`compare_token(assign_token(key_a), key_a, assign_token(key_b), key_b)`. -/

/-- One decoded cell (`CassandraParser::ColumnInfo` plus the payload that
`read_column_data` would deliver).  For a range tombstone `rdata` is the
end key held in `ColumnInfo::data`. -/
structure Cell where
  name : Bytes
  ts : Int
  deleted : Bool
  expiring : Bool
  range_tombstone : Bool
  rdata : Bytes
  value : Bytes
  ttl : Int
  expiration : Int
deriving DecidableEq

/-- The cleared `next_column_info` visible once a partition is exhausted:
`clear_flags()` plus `name.clear()`. -/
def emptyCell : Cell := ⟨[], 0, false, false, false, [], [], 0, 0⟩

/-- A live cell with no flags set. -/
def plainCell (name : Bytes) (value : Bytes) (ts : Int) : Cell :=
  ⟨name, ts, false, false, false, [], value, 0, 0⟩

/-- A range-tombstone cell: `name` is the (start) column name it was read
under, `rend` the end key, `ts` its timestamp. -/
def rtCell (name : Bytes) (rend : Bytes) (ts : Int) : Cell :=
  ⟨name, ts, false, false, true, rend, [], 0, 0⟩

/-- One partition: key, `row_marked_for_deletion`, and its cell stream. -/
structure Part where
  key : Bytes
  deletion : Int
  cells : List Cell
deriving DecidableEq

/-- The reader-facing state of one `SStable`: the current partition (whose
cell list still contains the current column at its head) and the partitions
after it.  An init-ed table always has a current partition. -/
structure TState where
  cur : Part
  rest : List Part
deriving DecidableEq

instance : Inhabited TState := ⟨⟨⟨[], 0, []⟩, []⟩⟩

def TState.nextKey (t : TState) : Bytes := t.cur.key

def TState.markedForDeletion (t : TState) : Int := t.cur.deletion

/-- `next_column()`: the currently decoded `ColumnInfo` (cleared when the
partition is exhausted). -/
def TState.nextColumn (t : TState) : Cell := t.cur.cells.headD emptyCell

/-- `read_column()`: decode the next cell of the current partition; `false`
when the partition is exhausted (a repeated call on an exhausted partition
stays exhausted and returns `false` again). -/
def TState.readColumn (t : TState) : Bool × TState :=
  match t.cur.cells with
  | [] => (false, t)
  | _ :: cs => (cs ≠ [], { t with cur := { t.cur with cells := cs } })

/-- `read_row()`: advance to the next partition; `true` means EOF. -/
def TState.readRow (t : TState) : Bool × TState :=
  match t.rest with
  | [] => (true, t)
  | p :: ps => (false, ⟨p, ps⟩)

/-- The callbacks `next_record` makes on the `DatabaseRow` sink. -/
inductive Event where
  | newRow (key : Bytes)
  | newCol (name value : Bytes) (ts : Int)
  | newColTTL (name value : Bytes) (ts : Int) (ttl expiration : Int)
deriving DecidableEq

/-- `CassandraParser::iterator` state: the fixed reader vector (sorted at
construction), `m_next_table`, the ordered set `m_active_tables`, and the
two statistics counters. -/
structure MState where
  tables : List TState
  nextTable : Nat
  active : List Nat
  skipped : Nat
  readRecords : Nat
deriving DecidableEq

/-- An iterator over the given (already sorted) reader list, as `begin()` /
`find()` build it. -/
def initState (tables : List TState) : MState :=
  ⟨tables, 0, [], 0, 0⟩

def getT (st : MState) (i : Nat) : TState := st.tables.getD i default

def setT (st : MState) (i : Nat) (t : TState) : MState :=
  { st with tables := st.tables.set i t }

/-- Ordered insertion into the `std::set<size_t>` of active tables. -/
def insertSorted (i : Nat) : List Nat → List Nat
  | [] => [i]
  | j :: js =>
    if i < j then i :: j :: js
    else if i = j then j :: js
    else j :: insertSorted i js

/-- `activate_table`: open the data buffer, decode the first partition and
join the active set.  In the model the table state already holds its first
partition (decoded by `init`), and a table the iterator received was
init-ed successfully, so activation always succeeds. -/
def activateTable (st : MState) (index : Nat) : MState :=
  { st with active := insertSorted index st.active }

/-- `deactivate_table`: close the table and leave the active set. -/
def deactivateTable (st : MState) (index : Nat) : MState :=
  { st with active := st.active.filter (fun j => j ≠ index) }

abbrev Cmp := Bytes → Bytes → Int

/-- `match_table`: compare table `index` against the current minimum
(`matches.head`); strictly smaller resets the match set, equal appends. -/
def matchTable (cmp : Cmp) (st : MState) (rms : List Nat) (index : Nat) :
    List Nat × Bool :=
  match rms with
  | [] => ([index], true)
  | m0 :: _ =>
    let c := cmp (getT st index).nextKey (getT st m0).nextKey
    if c < 0 then ([index], true)
    else if c = 0 then (rms ++ [index], true)
    else (rms, false)

/-- The scan of `m_active_tables` in `find_first_row_matches` (a
`std::set` iterates in ascending order). -/
def ffrmActive (cmp : Cmp) (st : MState) : List Nat :=
  st.active.foldl (fun ms i => (matchTable cmp st ms i).1) []

/-- The opening loop of `find_first_row_matches`:
`while (m_next_table < m_tables.size() && match_table(..., m_next_table))
activate_table(m_next_table++);`. -/
def ffrmOpenLoop (cmp : Cmp) (fuel : Nat) (st : MState) (rms : List Nat) :
    List Nat × MState :=
  match fuel with
  | 0 => (rms, st)
  | fuel + 1 =>
    if st.nextTable < st.tables.length then
      let mt := matchTable cmp st rms st.nextTable
      if mt.2 then
        ffrmOpenLoop cmp fuel
          (activateTable { st with nextTable := st.nextTable + 1 } st.nextTable) mt.1
      else (rms, st)
    else (rms, st)

/-- `find_first_row_matches`: the indices holding the smallest
`(token, key)` among active tables, folding in not-yet-opened tables while
they are not larger. -/
def findFirstRowMatches (cmp : Cmp) (st : MState) : List Nat × MState :=
  ffrmOpenLoop cmp (st.tables.length - st.nextTable) st (ffrmActive cmp st)

/-- One comparison step of `find_first_column_matches`. -/
def ffcmStep (st : MState) (acc : List Nat × Option Bytes) (i : Nat) :
    List Nat × Option Bytes :=
  let name := (getT st i).nextColumn.name
  match acc.2 with
  | none => ([i], some name)
  | some mn =>
    let c := strcmpM name mn
    if c < 0 then ([i], some name)
    else if c = 0 then (acc.1 ++ [i], acc.2)
    else acc

/-- `find_first_column_matches`: among the row-matched tables, the ones
whose current column name is the `strcmp`-smallest, in scan order. -/
def ffcm (st : MState) (rms : List Nat) : List Nat :=
  (rms.foldl (ffcmStep st) ([], none)).1

/-- `choose_latest_match`: the first matched column whose timestamp no
later match strictly exceeds (`thisTs > lastTs` updates). -/
def chooseLatest (st : MState) (mc : List Nat) : Nat :=
  match mc with
  | [] => 0
  | i :: rest =>
    (rest.foldl
      (fun (best : Nat × Int) j =>
        let tj := (getT st j).nextColumn.ts
        if best.2 < tj then (j, tj) else best)
      (i, (getT st i).nextColumn.ts)).1

/-- `tombstones[range_end] = ts` keeping the maximum per end key
(`if (found == tombstones.end() || found->second < ts)`). -/
def tombInsertMax (tombs : List (Bytes × Int)) (k : Bytes) (ts : Int) :
    List (Bytes × Int) :=
  match tombs with
  | [] => [(k, ts)]
  | (k', v) :: rest =>
    if k' = k then
      if v < ts then (k', ts) :: rest else (k', v) :: rest
    else (k', v) :: tombInsertMax rest k ts

/-- `if (minTime == SStable::STILL_ACTIVE || minTime < ts) minTime = ts`. -/
def maxUpdate (minTime ts : Int) : Int :=
  if minTime = STILL_ACTIVE ∨ minTime < ts then ts else minTime

/-- `update_tombstones`: fold the range tombstones currently pending on any
row-matched table into the per-partition map, then — only if some stored
end key is `std::map`-below the current column name (`lower_bound(name) !=
begin()`) — erase those passed entries and recompute `minTime` from
`marked_for_deletion` and the surviving tombstones. -/
def updateTombstones (st : MState) (tombs : List (Bytes × Int)) (minTime : Int)
    (rms : List Nat) (marked : Int) (name : Bytes) :
    List (Bytes × Int) × Int :=
  let folded := rms.foldl
    (fun (acc : List (Bytes × Int) × Int) i =>
      let c := (getT st i).nextColumn
      if c.range_tombstone then
        (tombInsertMax acc.1 c.rdata c.ts, maxUpdate acc.2 c.ts)
      else acc)
    (tombs, minTime)
  if folded.1.any (fun e => strLt e.1 name) then
    let surviving := folded.1.filter (fun e => !strLt e.1 name)
    (surviving, surviving.foldl (fun mt e => maxUpdate mt e.2) marked)
  else folded

/-- The swap-with-last removal
`*std::find(matches, matches + n, index) = matches[--n]`. -/
def removeSwap (l : List Nat) (x : Nat) : List Nat :=
  let p := l.indexOf x
  if p < l.length then (l.set p (l.getLast?.getD 0)).dropLast else l

/-- The advance loop at the end of each column iteration: `read_column`
every matched column; on exhaustion remove it from the row rms
(swap-with-last) and `read_row` it, deactivating at EOF. -/
def advStep (acc : MState × List Nat) (i : Nat) : MState × List Nat :=
  let rc := (getT acc.1 i).readColumn
  let st := setT acc.1 i rc.2
  if rc.1 then (st, acc.2)
  else
    let rms := removeSwap acc.2 i
    let rr := rc.2.readRow
    let st := setT st i rr.2
    if rr.1 then (deactivateTable st i, rms) else (st, rms)

def advanceMatched (st : MState) (rms : List Nat) (mc : List Nat) :
    MState × List Nat :=
  mc.foldl advStep (st, rms)

/-- The sink call for an emitted cell. -/
def emitEvent (name : Bytes) (c : Cell) : Event :=
  if c.expiring then Event.newColTTL name c.value c.ts c.ttl c.expiration
  else Event.newCol name c.value c.ts

/-- The per-cell emission test of `next_record`: nonempty name, not a
deletion marker, and not shadowed by the current deletion watermark. -/
def emitTest (name : Bytes) (c : Cell) (minTime : Int) : Bool :=
  !name.isEmpty && !c.deleted &&
    (decide (minTime = STILL_ACTIVE) || decide (minTime < c.ts))

/-- The column loop of `next_record`
(`while (size_t column_matches = find_first_column_matches(...)) ...`). -/
def columnLoop (fuel : Nat) (st : MState) (rms : List Nat)
    (tombs : List (Bytes × Int)) (minTime marked : Int) (hasCols : Bool) :
    MState × List Nat × Bool × List Event :=
  match fuel with
  | 0 => (st, rms, hasCols, [])
  | fuel + 1 =>
    match ffcm st rms with
    | [] => (st, rms, hasCols, [])
    | i0 :: mcrest =>
      let mc := i0 :: mcrest
      let name := (getT st i0).nextColumn.name
      let ut := updateTombstones st tombs minTime rms marked name
      let w := chooseLatest st mc
      let c := (getT st w).nextColumn
      let emit := emitTest name c ut.2
      let evs := if emit then [emitEvent name c] else []
      let adv := advanceMatched st rms mc
      let r := columnLoop fuel adv.1 adv.2 ut.1 ut.2 marked (hasCols || emit)
      (r.1, r.2.1, r.2.2.1, evs ++ r.2.2.2)

/-- The fold computing the partition-level `marked_for_deletion` as the
maximum over matched tables, ignoring `STILL_ACTIVE`. -/
def markedFold (st : MState) (rms : List Nat) : Int :=
  rms.foldl
    (fun m i =>
      let d := (getT st i).markedForDeletion
      if d ≠ STILL_ACTIVE ∧ (m = STILL_ACTIVE ∨ m < d) then d else m)
    STILL_ACTIVE

/-- Fuel that strictly dominates the column loop's termination measure
(row matches plus their pending cells). -/
def colFuel (st : MState) (rms : List Nat) : Nat :=
  rms.foldl (fun a i => a + (getT st i).cur.cells.length) 0 +
    rms.length + 1

/-- `next_record`: find the row matches (opening tables as needed), call
`new_row`, fold the row tombstone, run the column loop, and report whether
the row is live; a dead row bumps `skipped_records`.  The third component
is the sequence of sink callbacks made. -/
def nextRecord (cmp : Cmp) (st : MState) : Bool × MState × List Event :=
  let fr := findFirstRowMatches cmp st
  match fr.1 with
  | [] => (false, fr.2, [])
  | i0 :: _ =>
    let st := fr.2
    let rms := fr.1
    let key := (getT st i0).nextKey
    let marked := markedFold st rms
    let r := columnLoop (colFuel st rms) st rms [] marked marked false
    let hasCols := r.2.2.1
    let colEvs := r.2.2.2
    let st := { r.1 with readRecords := r.1.readRecords + 1 }
    if marked ≠ STILL_ACTIVE ∧ hasCols = false then
      (false, { st with skipped := st.skipped + 1 }, Event.newRow key :: colEvs)
    else (true, st, Event.newRow key :: colEvs)

/-- `iterator::next`: loop `next_record` (activating the next table when
nothing is active) until a live row or the end of all tables.  All sink
callbacks made along the way are collected. -/
def nextIter (cmp : Cmp) (fuel : Nat) (st : MState) : Bool × MState × List Event :=
  match fuel with
  | 0 => (false, st, [])
  | fuel + 1 =>
    if st.active = [] then
      if st.tables.length ≤ st.nextTable then (false, st, [])
      else
        nextIter cmp fuel
          (activateTable { st with nextTable := st.nextTable + 1 } st.nextTable)
    else
      let nr := nextRecord cmp st
      if nr.1 then (true, nr.2.1, nr.2.2)
      else
        let r := nextIter cmp fuel nr.2.1
        (r.1, r.2.1, nr.2.2 ++ r.2.2)

/-- Drive `next` to exhaustion, collecting every sink callback. -/
def runAll (cmp : Cmp) (fuel : Nat) (st : MState) : List Event × MState :=
  match fuel with
  | 0 => ([], st)
  | fuel + 1 =>
    let r := nextIter cmp (fuel + 1) st
    if r.1 then
      let r' := runAll cmp fuel r.2.1
      (r.2.2 ++ r'.1, r'.2)
    else (r.2.2, r.2.1)

/-- The keys passed to `new_row`, in callback order. -/
def rowKeys (evs : List Event) : List Bytes :=
  evs.filterMap (fun e => match e with
    | Event.newRow k => some k
    | _ => none)

/-- `ByteOrderPartitioner::compare_token` induced on keys (the token is
empty, so the comparison is `memcmp` then length). -/
def byteOrderCmp : Cmp := memCmpLen

/-- `Sorter`: order tables by `compare_token` on their first `(token,
key)` (`begin()` and `find()` both `std::sort` the reader vector with it;
the model uses a stable insertion sort, which fixes the tie order ties
that `std::sort` leaves unspecified — the C8 scenarios below have
tie-free first keys, where every comparison sort agrees). -/
def insertTable (cmp : Cmp) (t : TState) : List TState → List TState
  | [] => [t]
  | u :: us =>
    if cmp t.nextKey u.nextKey < 0 then t :: u :: us
    else u :: insertTable cmp t us

def sortTables (cmp : Cmp) : List TState → List TState
  | [] => []
  | t :: ts => insertTable cmp t (sortTables cmp ts)

/-- `init_at_key`: walk the index entries (the partition sequence) until
one is at or past the target (`compare_token(first, next) <= 0` returns
`true` there), else fall off the end (`false`: the table is dropped by
`find`). -/
def initAtKey (cmp : Cmp) (key : Bytes) (t : TState) : Option TState :=
  match (t.cur :: t.rest).dropWhile (fun p => decide (0 < cmp key p.key)) with
  | [] => none
  | p :: ps => some ⟨p, ps⟩

/-- `begin()`: `init` every file at its first partition, then sort the
reader vector by first key. -/
def beginIter (cmp : Cmp) (files : List TState) : MState :=
  initState (sortTables cmp files)

/-- `find(K)`: `init_at_key` every file at its first partition at or
after `K`, dropping files with none, then sort by first key. -/
def findIter (cmp : Cmp) (key : Bytes) (files : List TState) : MState :=
  initState (sortTables cmp (files.filterMap (initAtKey cmp key)))

/-- The suffix of a callback sequence starting at the first `new_row`
whose key is at or after `key` (this definition follows the C8 claim's
words, for comparison with the `find` run). -/
def traceSuffixFrom (cmp : Cmp) (key : Bytes) : List Event → List Event
  | [] => []
  | Event.newRow k :: rest =>
    if cmp key k ≤ 0 then Event.newRow k :: rest
    else traceSuffixFrom cmp key rest
  | Event.newCol _ _ _ :: rest => traceSuffixFrom cmp key rest
  | Event.newColTTL _ _ _ _ _ :: rest => traceSuffixFrom cmp key rest

/-- C8 scenario, file 1: partitions `1` and `9`; the cell stored at
partition `9` is parametric. -/
def c8FileA (v : Bytes) (t : Int) : TState :=
  ⟨⟨[1], STILL_ACTIVE, [plainCell [10] [65] 7]⟩,
   [⟨[9], STILL_ACTIVE, [plainCell [20] v t]⟩]⟩

/-- C8 scenario, file 2: partitions `5` and `9`. -/
def c8FileB (v : Bytes) (t : Int) : TState :=
  ⟨⟨[5], STILL_ACTIVE, [plainCell [10] [66] 7]⟩,
   [⟨[9], STILL_ACTIVE, [plainCell [20] v t]⟩]⟩

theorem memCmpLen_refl (a : Bytes) : memCmpLen a a = 0 := by
  induction a with
  | nil => rfl
  | cons x as ih => simp [memCmpLen, ih]

theorem memCmpLen_antisymm (a b : Bytes) : memCmpLen b a = -memCmpLen a b := by
  induction a generalizing b with
  | nil => cases b <;> simp [memCmpLen]
  | cons x as ih =>
    cases b with
    | nil => simp [memCmpLen]
    | cons y bs =>
      simp only [memCmpLen]
      split_ifs <;> first | exact ih bs | omega

theorem memCmpLen_trans_le (a b c : Bytes) :
    memCmpLen a b ≤ 0 → memCmpLen b c ≤ 0 → memCmpLen a c ≤ 0 := by
  induction a generalizing b c with
  | nil => intro _ _; cases c <;> simp [memCmpLen]
  | cons x as ih =>
    intro h1 h2
    cases b with
    | nil => simp [memCmpLen] at h1
    | cons y bs =>
      cases c with
      | nil => simp [memCmpLen] at h2
      | cons z cs =>
        simp only [memCmpLen] at h1 h2 ⊢
        split_ifs at h1 h2 ⊢ <;> first | exact ih bs cs h1 h2 | omega

theorem byteOrderCmp_flip (a b : Bytes) :
    0 < byteOrderCmp a b ↔ byteOrderCmp b a < 0 := by
  have h := memCmpLen_antisymm a b
  unfold byteOrderCmp
  omega

/-! ## Structural lemmas about the merge functions -/

def isRowEvent : Event → Bool
  | Event.newRow _ => true
  | _ => false

theorem isRowEvent_emitEvent (name : Bytes) (c : Cell) :
    isRowEvent (emitEvent name c) = false := by
  cases h : c.expiring <;> simp [emitEvent, h, isRowEvent]

/-- One advance step leaves the counters untouched. -/
theorem advStep_counters (acc : MState × List Nat) (i : Nat) :
    (advStep acc i).1.skipped = acc.1.skipped ∧
    (advStep acc i).1.readRecords = acc.1.readRecords ∧
    (advStep acc i).1.nextTable = acc.1.nextTable := by
  simp only [advStep]
  split
  · exact ⟨rfl, rfl, rfl⟩
  · split
    · simp [deactivateTable, setT]
    · simp [setT]

/-- The counters are untouched by the advance fold (it only rewrites table
states and the active set). -/
theorem advanceMatched_counters (mc : List Nat) :
    ∀ st rms,
      ((advanceMatched st rms mc).1.skipped = st.skipped ∧
       (advanceMatched st rms mc).1.readRecords = st.readRecords ∧
       (advanceMatched st rms mc).1.nextTable = st.nextTable) := by
  induction mc with
  | nil => intro st rms; exact ⟨rfl, rfl, rfl⟩
  | cons i mc ih =>
    intro st rms
    simp only [advanceMatched, List.foldl_cons]
    have h := ih (advStep (st, rms) i).1 (advStep (st, rms) i).2
    simp only [advanceMatched, Prod.mk.eta] at h
    have hs := advStep_counters (st, rms) i
    simp only at hs
    refine ⟨?_, ?_, ?_⟩ <;> omega

/-- The column loop makes no `new_row` callback. -/
theorem columnLoop_no_newRow (fuel : Nat) :
    ∀ st rms tombs mt mk hc,
      ∀ e ∈ (columnLoop fuel st rms tombs mt mk hc).2.2.2, isRowEvent e = false := by
  induction fuel with
  | zero => intro st rms tombs mt mk hc e he; simp [columnLoop] at he
  | succ fuel ih =>
    intro st rms tombs mt mk hc e he
    simp only [columnLoop] at he
    cases hmc : ffcm st rms with
    | nil => rw [hmc] at he; simp at he
    | cons i0 mcrest =>
      rw [hmc] at he
      simp only [List.mem_append] at he
      rcases he with he | he
      · split at he
        · rcases List.mem_singleton.mp he with rfl
          exact isRowEvent_emitEvent _ _
        · simp at he
      · exact ih _ _ _ _ _ _ e he

/-- `has_columns` is set exactly when the column loop emitted something. -/
theorem columnLoop_hasCols (fuel : Nat) :
    ∀ st rms tombs mt mk hc,
      (columnLoop fuel st rms tombs mt mk hc).2.2.1 =
        (hc || !(columnLoop fuel st rms tombs mt mk hc).2.2.2.isEmpty) := by
  induction fuel with
  | zero => intro st rms tombs mt mk hc; simp [columnLoop]
  | succ fuel ih =>
    intro st rms tombs mt mk hc
    simp only [columnLoop]
    cases hmc : ffcm st rms with
    | nil => simp
    | cons i0 mcrest =>
      simp only
      cases hemit : emitTest (getT st i0).nextColumn.name
          (getT st (chooseLatest st (i0 :: mcrest))).nextColumn
          (updateTombstones st tombs mt rms mk (getT st i0).nextColumn.name).2 with
      | false => simpa [hemit] using ih _ _ _ _ _ _
      | true => simp [hemit, ih _ _ _ _ _ _]

/-- The column loop leaves both statistics counters unchanged. -/
theorem columnLoop_counters (fuel : Nat) :
    ∀ st rms tombs mt mk hc,
      (columnLoop fuel st rms tombs mt mk hc).1.skipped = st.skipped ∧
      (columnLoop fuel st rms tombs mt mk hc).1.readRecords = st.readRecords := by
  induction fuel with
  | zero => intro st rms tombs mt mk hc; exact ⟨rfl, rfl⟩
  | succ fuel ih =>
    intro st rms tombs mt mk hc
    simp only [columnLoop]
    cases hmc : ffcm st rms with
    | nil => exact ⟨rfl, rfl⟩
    | cons i0 mcrest =>
      simp only
      have hadv := advanceMatched_counters (i0 :: mcrest) st rms
      have hih := ih (advanceMatched st rms (i0 :: mcrest)).1
        (advanceMatched st rms (i0 :: mcrest)).2
        (updateTombstones st tombs mt rms mk (getT st i0).nextColumn.name).1
        (updateTombstones st tombs mt rms mk (getT st i0).nextColumn.name).2
        mk
        (hc || emitTest (getT st i0).nextColumn.name
          (getT st (chooseLatest st (i0 :: mcrest))).nextColumn
          (updateTombstones st tombs mt rms mk (getT st i0).nextColumn.name).2)
      omega

/-- `find_first_row_matches` leaves the reader states and the counters
unchanged (it only opens tables: `m_next_table` and the active set move). -/
theorem ffrmOpenLoop_frame (cmp : Cmp) (fuel : Nat) :
    ∀ st rms,
      (ffrmOpenLoop cmp fuel st rms).2.tables = st.tables ∧
      (ffrmOpenLoop cmp fuel st rms).2.skipped = st.skipped ∧
      (ffrmOpenLoop cmp fuel st rms).2.readRecords = st.readRecords := by
  induction fuel with
  | zero => intro st rms; exact ⟨rfl, rfl, rfl⟩
  | succ fuel ih =>
    intro st rms
    rw [ffrmOpenLoop]
    by_cases h1 : st.nextTable < st.tables.length
    · simp only [if_pos h1]
      by_cases h2 : (matchTable cmp st rms st.nextTable).2 = true
      · simpa [h2, activateTable] using ih _ _
      · simp [h2]
    · simp [h1]

theorem findFirstRowMatches_frame (cmp : Cmp) (st : MState) :
    (findFirstRowMatches cmp st).2.tables = st.tables ∧
    (findFirstRowMatches cmp st).2.skipped = st.skipped ∧
    (findFirstRowMatches cmp st).2.readRecords = st.readRecords :=
  ffrmOpenLoop_frame cmp _ st _

/-- C1 (amended).  Whenever `next_record` examines a partition (its trace
is nonempty), the sink receives exactly one `new_row`, first, and the
column callbacks carry no further `new_row`; and when the partition turns
out to consist only of deletions (`next_record` reports dead), that
`new_row` call was still made, no column callback followed it, and
`skipped_records` was incremented by exactly one. -/
theorem c1_new_row_per_examined_partition (cmp : Cmp) (st : MState)
    (h : (nextRecord cmp st).2.2 ≠ []) :
    ∃ k colEvs,
      (nextRecord cmp st).2.2 = Event.newRow k :: colEvs ∧
      (∀ e ∈ colEvs, isRowEvent e = false) ∧
      ((nextRecord cmp st).1 = false →
        colEvs = [] ∧ (nextRecord cmp st).2.1.skipped = st.skipped + 1) := by
  cases hfr : (findFirstRowMatches cmp st).1 with
  | nil =>
    exfalso
    apply h
    simp only [nextRecord, hfr]
  | cons i0 rest =>
    have hcnt := columnLoop_counters
      (colFuel (findFirstRowMatches cmp st).2 (i0 :: rest))
      (findFirstRowMatches cmp st).2 (i0 :: rest) []
      (markedFold (findFirstRowMatches cmp st).2 (i0 :: rest))
      (markedFold (findFirstRowMatches cmp st).2 (i0 :: rest)) false
    have hskip := (findFirstRowMatches_frame cmp st).2.1
    have hhc := columnLoop_hasCols
      (colFuel (findFirstRowMatches cmp st).2 (i0 :: rest))
      (findFirstRowMatches cmp st).2 (i0 :: rest) []
      (markedFold (findFirstRowMatches cmp st).2 (i0 :: rest))
      (markedFold (findFirstRowMatches cmp st).2 (i0 :: rest)) false
    have hnr := columnLoop_no_newRow
      (colFuel (findFirstRowMatches cmp st).2 (i0 :: rest))
      (findFirstRowMatches cmp st).2 (i0 :: rest) []
      (markedFold (findFirstRowMatches cmp st).2 (i0 :: rest))
      (markedFold (findFirstRowMatches cmp st).2 (i0 :: rest)) false
    simp only [nextRecord, hfr]
    split
    · rename_i hcond
      refine ⟨_, _, rfl, hnr, fun _ => ⟨?_, ?_⟩⟩
      · have hempty := hcond.2
        rw [hhc] at hempty
        exact List.isEmpty_iff.mp (by simpa using hempty)
      · simp only
        rw [hcnt.1, hskip]
    · exact ⟨_, _, rfl, hnr, fun hcontra => by simp at hcontra⟩

/-- Closed instance of `c1_new_row_per_examined_partition` at the iterator
over one pure-tombstone partition. -/
theorem c1_new_row_per_examined_partition_witness :
    (nextRecord byteOrderCmp (initState [⟨⟨[107], 6, []⟩, []⟩])).2.2 ≠ [] ∧
    (∃ k colEvs,
      (nextRecord byteOrderCmp (initState [⟨⟨[107], 6, []⟩, []⟩])).2.2 =
        Event.newRow k :: colEvs ∧
      (∀ e ∈ colEvs, isRowEvent e = false) ∧
      ((nextRecord byteOrderCmp (initState [⟨⟨[107], 6, []⟩, []⟩])).1 = false →
        colEvs = [] ∧
        (nextRecord byteOrderCmp (initState [⟨⟨[107], 6, []⟩, []⟩])).2.1.skipped =
          (initState [⟨⟨[107], 6, []⟩, []⟩]).skipped + 1)) :=
  ⟨by decide,
   c1_new_row_per_examined_partition byteOrderCmp
     (initState [⟨⟨[107], 6, []⟩, []⟩]) (by decide)⟩

set_option maxRecDepth 8000 in
set_option maxHeartbeats 2000000 in
/-- C2 (amended).  In a partition carrying a range tombstone with end key
`e` and timestamp `tr` (stored before the data cell, not yet pruned at its
own name, `tr` a real timestamp) followed by a live cell `(n1, v, t)`, the
cell is delivered iff `e < n1` (the tombstone was pruned: we stepped past
the range) or `tr < t`; equivalently it is suppressed exactly when
`n1 ≤ e` and `t ≤ tr`.  The bound is inclusive: `n1 = e` still shadows,
and pruning happens only once `end_key < current_name`. -/
theorem c2_range_tombstone_shadowing (cmp : Cmp) (k n0 e n1 v : Bytes) (tr t : Int)
    (hn0 : n0 ≠ []) (hn1 : n1 ≠ []) (he : strLt e n0 = false)
    (htr : tr ≠ STILL_ACTIVE) :
    (nextRecord cmp
      (initState [⟨⟨k, STILL_ACTIVE, [rtCell n0 e tr, plainCell n1 v t]⟩, []⟩])).1 =
        true ∧
    (nextRecord cmp
      (initState [⟨⟨k, STILL_ACTIVE, [rtCell n0 e tr, plainCell n1 v t]⟩, []⟩])).2.2 =
      Event.newRow k ::
        (if strLt e n1 || decide (tr < t) then [Event.newCol n1 v t] else []) := by
  have h0 : n0.isEmpty = false := by
    cases n0
    · exact absurd rfl hn0
    · rfl
  have h1 : n1.isEmpty = false := by
    cases n1
    · exact absurd rfl hn1
    · rfl
  have hdtr : decide (tr = STILL_ACTIVE) = false := decide_eq_false htr
  constructor <;>
    by_cases hp : strLt e n1 <;> by_cases ht : tr < t <;>
      simp [nextRecord, findFirstRowMatches, ffrmActive, ffrmOpenLoop, matchTable,
        activateTable, insertSorted, markedFold, colFuel, columnLoop, ffcm, ffcmStep,
        updateTombstones, tombInsertMax, maxUpdate, chooseLatest, emitTest, emitEvent,
        advanceMatched, advStep, removeSwap, deactivateTable, getT, setT, initState,
        TState.readColumn, TState.readRow, TState.nextColumn, TState.nextKey,
        TState.markedForDeletion, rtCell, plainCell, emptyCell,
        h0, h1, hdtr, hp, ht, htr, he, lt_irrefl]

/-- Closed instance of `c2_range_tombstone_shadowing`: end key `"m"`,
tombstone timestamp 8, then the cell `("n", "N", 5)` with name above the
end key, which is delivered. -/
theorem c2_range_tombstone_shadowing_witness :
    ([97] : Bytes) ≠ [] ∧ ([110] : Bytes) ≠ [] ∧
    strLt [109] [97] = false ∧ (8 : Int) ≠ STILL_ACTIVE ∧
    ((nextRecord byteOrderCmp
        (initState
          [⟨⟨[107], STILL_ACTIVE, [rtCell [97] [109] 8, plainCell [110] [78] 5]⟩, []⟩])).1 =
          true ∧
      (nextRecord byteOrderCmp
        (initState
          [⟨⟨[107], STILL_ACTIVE, [rtCell [97] [109] 8, plainCell [110] [78] 5]⟩, []⟩])).2.2 =
        Event.newRow [107] ::
          (if strLt [109] [110] || decide ((8 : Int) < 5)
           then [Event.newCol [110] [78] 5] else [])) :=
  ⟨by decide, by decide, by decide, by decide,
   c2_range_tombstone_shadowing byteOrderCmp [107] [97] [109] [110] [78] 8 5
     (by decide) (by decide) (by decide) (by decide)⟩

set_option maxRecDepth 8000 in
set_option maxHeartbeats 2000000 in
/-- C3.  Two files, same partition key and same column name, live
non-expiring cells with distinct timestamps: exactly one cell is delivered,
the one with the strictly greater timestamp; the older value appears
nowhere in the trace. -/
theorem c3_latest_timestamp_wins (cmp : Cmp) (k n v1 v2 : Bytes) (ts1 ts2 : Int)
    (hk : cmp k k = 0) (hn : n ≠ []) (hts : ts1 ≠ ts2) :
    (nextRecord cmp
      (initState [⟨⟨k, STILL_ACTIVE, [plainCell n v1 ts1]⟩, []⟩,
                  ⟨⟨k, STILL_ACTIVE, [plainCell n v2 ts2]⟩, []⟩])).1 = true ∧
    (nextRecord cmp
      (initState [⟨⟨k, STILL_ACTIVE, [plainCell n v1 ts1]⟩, []⟩,
                  ⟨⟨k, STILL_ACTIVE, [plainCell n v2 ts2]⟩, []⟩])).2.2 =
      [Event.newRow k,
       Event.newCol n (if ts1 < ts2 then v2 else v1) (max ts1 ts2)] := by
  have h1 : n.isEmpty = false := by
    cases n
    · exact absurd rfl hn
    · rfl
  have hs : strcmpM n n = 0 := memCmpLen_refl _
  by_cases hlt : ts1 < ts2
  · have hm : max ts1 ts2 = ts2 := max_eq_right hlt.le
    constructor <;>
      simp [nextRecord, findFirstRowMatches, ffrmActive, ffrmOpenLoop, matchTable,
        activateTable, insertSorted, markedFold, colFuel, columnLoop, ffcm, ffcmStep,
        updateTombstones, tombInsertMax, maxUpdate, chooseLatest, emitTest, emitEvent,
        advanceMatched, advStep, removeSwap, deactivateTable, getT, setT, initState,
        TState.readColumn, TState.readRow, TState.nextColumn, TState.nextKey,
        TState.markedForDeletion, plainCell, emptyCell, h1, hs, hk, hlt, hm]
  · have hm : max ts1 ts2 = ts1 := max_eq_left (by omega)
    constructor <;>
      simp [nextRecord, findFirstRowMatches, ffrmActive, ffrmOpenLoop, matchTable,
        activateTable, insertSorted, markedFold, colFuel, columnLoop, ffcm, ffcmStep,
        updateTombstones, tombInsertMax, maxUpdate, chooseLatest, emitTest, emitEvent,
        advanceMatched, advStep, removeSwap, deactivateTable, getT, setT, initState,
        TState.readColumn, TState.readRow, TState.nextColumn, TState.nextKey,
        TState.markedForDeletion, plainCell, emptyCell, h1, hs, hk, hlt, hm]

/-- Closed instance of `c3_latest_timestamp_wins`: timestamps 5 and 7, the
value written at 7 is delivered. -/
theorem c3_latest_timestamp_wins_witness :
    byteOrderCmp [107] [107] = 0 ∧ ([99] : Bytes) ≠ [] ∧ (5 : Int) ≠ 7 ∧
    ((nextRecord byteOrderCmp
      (initState [⟨⟨[107], STILL_ACTIVE, [plainCell [99] [111] 5]⟩, []⟩,
                  ⟨⟨[107], STILL_ACTIVE, [plainCell [99] [110] 7]⟩, []⟩])).1 = true ∧
     (nextRecord byteOrderCmp
      (initState [⟨⟨[107], STILL_ACTIVE, [plainCell [99] [111] 5]⟩, []⟩,
                  ⟨⟨[107], STILL_ACTIVE, [plainCell [99] [110] 7]⟩, []⟩])).2.2 =
      [Event.newRow [107],
       Event.newCol [99] (if (5 : Int) < 7 then [110] else [111]) (max 5 7)]) :=
  ⟨by decide, by decide, by decide,
   c3_latest_timestamp_wins byteOrderCmp [107] [99] [111] [110] 5 7
     (by decide) (by decide) (by decide)⟩

/-! ## Concrete scenarios for the merge claims -/

/-- An iterator over one table holding a single partition `"k"` that is a
pure row tombstone (`marked_for_deletion = 6`, no columns). -/
def c1State : MState := initState [⟨⟨[107], 6, []⟩, []⟩]

/-- C1 counterexample.  On a partition whose only content is a row
deletion, `next` still invokes `new_row` on the sink (at
`CassandraParser.cpp:434`, before liveness is known): the callback trace is
`[new_row "k"]`, not empty, while `skipped_records` does increment by one
and the partition is not reported live. -/
theorem c1_pure_tombstone_calls_new_row :
    (nextIter byteOrderCmp 3 c1State).1 = false ∧
    (nextIter byteOrderCmp 3 c1State).2.2 = [Event.newRow [107]] ∧
    (nextIter byteOrderCmp 3 c1State).2.1.skipped = 1 := by
  refine ⟨by decide, by decide, by decide⟩

/-- One table, one partition `"k"`: a range tombstone with end key `"m"`
and timestamp 8, then the cell `("m", "N", ts = 5)` whose name equals the
end key. -/
def c2State : MState :=
  initState [⟨⟨[107], STILL_ACTIVE, [rtCell [97] [109] 8, plainCell [109] [78] 5]⟩, []⟩]

/-- C2 counterexample.  The cell named exactly the tombstone's end key
`"m"` with `ts = 5 ≤ 8` is suppressed — the trace holds no column event —
although the claim says cells with name `≥ K_e` are unaffected: the erase
in `update_tombstones` uses `lower_bound(name)`, which prunes only entries
with `end_key < name`, so the `end_key = name` entry still shadows. -/
theorem c2_end_key_cell_suppressed :
    (nextIter byteOrderCmp 3 c2State).1 = true ∧
    (nextIter byteOrderCmp 3 c2State).2.2 = [Event.newRow [107]] ∧
    Event.newCol [109] [78] 5 ∉ (nextIter byteOrderCmp 3 c2State).2.2 := by
  refine ⟨by decide, by decide, by decide⟩

/-- Three tables over the same partition `"k"`: table 0 exhausts after one
cell `"a"`, tables 1 and 2 both then hold `"b"` with the same timestamp 5
but different values (`"1"` from table 1, `"2"` from table 2). -/
def c10State : MState :=
  initState
    [⟨⟨[107], STILL_ACTIVE, [plainCell [97] [65] 1]⟩, []⟩,
     ⟨⟨[107], STILL_ACTIVE, [plainCell [97] [66] 0, plainCell [98] [49] 5]⟩, []⟩,
     ⟨⟨[107], STILL_ACTIVE, [plainCell [97] [67] 0, plainCell [98] [50] 5]⟩, []⟩]

/-- C10 counterexample.  After table 0 exhausts, the swap-with-last removal
(`*position = matches[--n_matches]`) turns the match list `[0,1,2]` into
`[2,1]`, so for the tied column `"b"` the scan starts at table 2 and the
delivered value is table 2's `"2"`, not the lowest-index table 1's `"1"`:
the match scan order is not always ascending table index. -/
theorem c10_tie_not_lowest_index :
    (nextIter byteOrderCmp 4 c10State).2.2 =
      [Event.newRow [107], Event.newCol [97] [65] 1, Event.newCol [98] [50] 5] ∧
    Event.newCol [98] [49] 5 ∉ (nextIter byteOrderCmp 4 c10State).2.2 := by
  refine ⟨by decide, by decide⟩

/-- C10 (amended).  `choose_latest_match` delivers the cell of the first
reader in the match scan order attaining the maximal timestamp: the scan
list splits as `l₁ ++ winner :: l₂` where everything before the winner has
a strictly smaller timestamp (the search updates only on `thisTs > lastTs`)
and everything after is no larger.  Which table index that is depends on
the current scan order, which swap-with-last removals may have permuted. -/
theorem c10_first_in_scan_order_wins (st : MState) (i : Nat) (rest : List Nat) :
    ∃ l₁ l₂,
      i :: rest = l₁ ++ chooseLatest st (i :: rest) :: l₂ ∧
      (∀ j ∈ l₁, (getT st j).nextColumn.ts <
        (getT st (chooseLatest st (i :: rest))).nextColumn.ts) ∧
      (∀ j ∈ l₂, (getT st j).nextColumn.ts ≤
        (getT st (chooseLatest st (i :: rest))).nextColumn.ts) := by
  induction rest generalizing i with
  | nil =>
    refine ⟨[], [], ?_, ?_, ?_⟩ <;> simp [chooseLatest]
  | cons j rest ih =>
    by_cases h : (getT st i).nextColumn.ts < (getT st j).nextColumn.ts
    · have hcl : chooseLatest st (i :: j :: rest) = chooseLatest st (j :: rest) := by
        simp [chooseLatest, h]
      obtain ⟨l₁, l₂, heq, h1, h2⟩ := ih j
      have hjw : (getT st j).nextColumn.ts ≤
          (getT st (chooseLatest st (j :: rest))).nextColumn.ts := by
        cases l₁ with
        | nil =>
          simp only [List.nil_append, List.cons.injEq] at heq
          exact le_of_eq (congrArg (fun x => (getT st x).nextColumn.ts) heq.1)
        | cons a l₁' =>
          simp only [List.cons_append, List.cons.injEq] at heq
          exact le_of_lt (lt_of_eq_of_lt
            (congrArg (fun x => (getT st x).nextColumn.ts) heq.1)
            (h1 a (List.mem_cons_self a l₁')))
      refine ⟨i :: l₁, l₂, ?_, ?_, ?_⟩
      · rw [hcl]
        simpa using heq
      · intro x hx
        rw [hcl]
        rcases List.mem_cons.mp hx with hx | hx
        · exact lt_of_eq_of_lt (congrArg (fun y => (getT st y).nextColumn.ts) hx)
            (lt_of_lt_of_le h hjw)
        · exact h1 x hx
      · intro x hx
        rw [hcl]
        exact h2 x hx
    · have hcl : chooseLatest st (i :: j :: rest) = chooseLatest st (i :: rest) := by
        simp [chooseLatest, h]
      obtain ⟨l₁, l₂, heq, h1, h2⟩ := ih i
      cases l₁ with
      | nil =>
        simp only [List.nil_append, List.cons.injEq] at heq
        refine ⟨[], j :: l₂, ?_, ?_, ?_⟩
        · rw [hcl]
          simp only [List.nil_append]
          rw [← heq.2]
          exact congrArg (fun x => x :: j :: rest) heq.1
        · simp
        · intro x hx
          rw [hcl]
          rcases List.mem_cons.mp hx with hx | hx
          · have hji : (getT st j).nextColumn.ts ≤ (getT st i).nextColumn.ts := by omega
            have hiw : (getT st i).nextColumn.ts =
                (getT st (chooseLatest st (i :: rest))).nextColumn.ts :=
              congrArg (fun y => (getT st y).nextColumn.ts) heq.1
            exact le_of_le_of_eq
              (le_of_eq_of_le (congrArg (fun y => (getT st y).nextColumn.ts) hx) hji) hiw
          · exact h2 x hx
      | cons a l₁' =>
        simp only [List.cons_append, List.cons.injEq] at heq
        have hiw : (getT st i).nextColumn.ts <
            (getT st (chooseLatest st (i :: rest))).nextColumn.ts :=
          lt_of_eq_of_lt (congrArg (fun y => (getT st y).nextColumn.ts) heq.1)
            (h1 a (List.mem_cons_self a l₁'))
        have hl1 : ∀ x ∈ l₁', (getT st x).nextColumn.ts <
            (getT st (chooseLatest st (i :: rest))).nextColumn.ts :=
          fun x hx => h1 x (List.mem_cons_of_mem a hx)
        refine ⟨i :: j :: l₁', l₂, ?_, ?_, ?_⟩
        · rw [hcl]
          simp only [List.cons_append, List.cons.injEq, true_and]
          exact heq.2
        · intro x hx
          rw [hcl]
          rcases List.mem_cons.mp hx with hx | hx
          · exact lt_of_eq_of_lt (congrArg (fun y => (getT st y).nextColumn.ts) hx) hiw
          · rcases List.mem_cons.mp hx with hx | hx
            · have hji : (getT st j).nextColumn.ts ≤ (getT st i).nextColumn.ts := by omega
              exact lt_of_le_of_lt
                (le_of_eq_of_le (congrArg (fun y => (getT st y).nextColumn.ts) hx) hji) hiw
            · exact hl1 x hx
        · intro x hx
          rw [hcl]
          exact h2 x hx

/-! ## `OldSStable` byte-level state machine (`SSTable.cpp`)

The pre-MA reader decodes its data stream through the three-state machine
`{READ_ROW, READ_COLUMN, READ_COLUMN_DATA}`.  The data buffer is a
`CompressedBuffer` (`SStable::open`), so zero-length reads succeed.
Version codes are `(v0 - 'a') * 26 + (v1 - 'a')`. -/

def VERSION_D : Nat := 3 * 26

def VERSION_JA : Nat := 9 * 26

def VERSION_MA : Nat := 12 * 26

inductive FSM where
  | READ_ROW
  | READ_COLUMN
  | READ_COLUMN_DATA
deriving DecidableEq

/-- `CassandraParser::ColumnInfo`.  The C++ `extra_data` union overlays
`counter_timestamp` with the `(ttl, expiration)` pair; they are kept as
separate fields here and never both read. -/
structure ColInfo where
  deleted : Bool
  expiring : Bool
  range_tombstone : Bool
  name : Bytes
  ts : Int
  counter_timestamp : Int
  ttl : Int
  expiration : Int
  data : Bytes
deriving DecidableEq

def initColInfo : ColInfo := ⟨false, false, false, [], 0, 0, 0, 0, []⟩

/-- `ColumnInfo::clear_flags()`. -/
def ColInfo.clearFlags (c : ColInfo) : ColInfo :=
  { c with deleted := false, expiring := false, range_tombstone := false }

/-- The composite-path stripping loop of `OldSStable::read_column`
(`for (size_t buffer_len = name.length(); buffer_len >= 2;)`). -/
def stripPathGo (name : Bytes) (buffer_len : Nat) : Bytes :=
  if buffer_len < 2 then name
  else
    let advanced := name.length - buffer_len
    let b0 := name.getD advanced 0
    let b1 := name.getD (advanced + 1) 0
    let len16 := (b0 <<< 8) ||| b1
    if _h : len16 + 3 < buffer_len then stripPathGo name (buffer_len - (len16 + 3))
    else if buffer_len = len16 + 3 then (name.drop (advanced + 2)).take len16
    else name
termination_by buffer_len
decreasing_by omega

def stripPath (name : Bytes) : Bytes := stripPathGo name name.length

/-- `OldSStable` reader state. -/
structure OldSS where
  buf : Buf
  version : Nat
  fsm : FSM
  remaining_columns : Nat
  next_key_value : Bytes
  row_marked_for_deletion : Int
  next_column_info : ColInfo
deriving DecidableEq

/-- `OldSStable::read_column`.  The C++ function opens with
`assert(fsm == READ_COLUMN)` (after the `READ_COLUMN_DATA` skip); the model
executes the NDEBUG behaviour and the claims inspect the machine state. -/
def readColumnO (s : OldSS) : Bool × OldSS :=
  let s := if s.fsm = FSM.READ_COLUMN_DATA then
      { s with buf := skipData s.buf, fsm := FSM.READ_COLUMN }
    else s
  let s := { s with next_column_info := s.next_column_info.clearFlags }
  if s.version < VERSION_JA ∧ s.remaining_columns = 0 then
    -- remaining-columns counter exhausted: clear the name, report false;
    -- note the machine is NOT returned to READ_ROW on this path
    (false, { s with next_column_info := { s.next_column_info with name := [] } })
  else
    let s := if s.version < VERSION_JA then
        { s with remaining_columns := s.remaining_columns - 1 }
      else s
    let (nm, buf) := readString s.buf
    let s := { s with buf := buf,
                      next_column_info := { s.next_column_info with name := nm } }
    if nm = [] then (false, { s with fsm := FSM.READ_ROW })
    else
      let s := { s with next_column_info :=
                  { s.next_column_info with name := stripPath nm } }
      let (flags, buf) := readByte s.buf
      let s := { s with buf := buf,
                        next_column_info :=
                          { s.next_column_info with deleted := flags &&& 0x01 ≠ 0 } }
      if flags &&& 0x10 ≠ 0 then
        -- RANGE_TOMBSTONE_MASK: end key, 4-byte local deletion, timestamp
        let (d, buf) := readString s.buf
        let buf := skipBytes buf 4
        let (ts, buf) := readLonglong buf
        (true, { s with buf := buf,
                        next_column_info :=
                          { s.next_column_info with
                              data := d, ts := ts, range_tombstone := true } })
      else
        let s :=
          if flags &&& 0x04 ≠ 0 then
            -- COUNTER_MASK: counter timestamp
            let (cts, buf) := readLonglong s.buf
            { s with buf := buf,
                     next_column_info :=
                       { s.next_column_info with counter_timestamp := cts } }
          else if flags &&& 0x02 ≠ 0 then
            -- EXPIRATION_MASK: ttl, expiration
            let (ttl, buf) := readInt s.buf
            let (expn, buf) := readInt buf
            { s with buf := buf,
                     next_column_info :=
                       { s.next_column_info with
                           ttl := ttl, expiration := expn, expiring := true } }
          else s
        let (ts, buf) := readLonglong s.buf
        (true, { s with buf := buf, fsm := FSM.READ_COLUMN_DATA,
                        next_column_info := { s.next_column_info with ts := ts } })

/-- `OldSStable::read_row` (token assignment omitted: the partitioner does
not participate in the state-machine claims).  Returns `true` on EOF. -/
def readRowO (s : OldSS) : Bool × OldSS :=
  let (k, buf) := readString s.buf
  let s := { s with buf := buf, next_key_value := k }
  if s.buf.eof then (true, s)
  else
    let s := if s.version < VERSION_D then { s with buf := skipBytes s.buf 4 }
             else if s.version < VERSION_JA then { s with buf := skipBytes s.buf 8 }
             else s
    let s := { s with buf := skipBytes s.buf 4 }
    let (md, buf) := readLonglong s.buf
    let s := { s with buf := buf, row_marked_for_deletion := md }
    let s := if s.version < VERSION_JA then
        let (rc, buf) := readInt s.buf
        { s with buf := buf, remaining_columns := toSizeT rc }
      else s
    let s := { s with fsm := FSM.READ_COLUMN }
    let (_, s) := readColumnO s
    (s.buf.eof, s)

/-- `OldSStable::read_column_data`: `assert(fsm == READ_COLUMN_DATA)`,
read the 32-bit-length-prefixed payload, park at `READ_COLUMN`. -/
def readColumnDataO (s : OldSS) : Option Bytes × OldSS :=
  let (d, buf) := readData s.buf
  (d, { s with buf := buf, fsm := FSM.READ_COLUMN })

/-- A version-`ib` (208 + 1 = 209, `D ≤ ib < JA`) data stream holding one
partition: key `"k"`, 8-byte size skip, 4-byte local deletion, row
deletion timestamp 6, and a column count of zero. -/
def c7BytesIb : Bytes :=
  [0, 1, 107] ++ [0, 0, 0, 0, 0, 0, 0, 0] ++ [0, 0, 0, 0] ++
    [0, 0, 0, 0, 0, 0, 0, 6] ++ [0, 0, 0, 0]

def c7TableIb : OldSS := ⟨mkCBuf c7BytesIb, 209, FSM.READ_ROW, 0, [], 0, initColInfo⟩

/-- A version-`ja` (234) stream holding one partition: key `"k"`, 4-byte
local deletion, row deletion timestamp 6, and the empty-name column
terminator. -/
def c7BytesJa : Bytes :=
  [0, 1, 107] ++ [0, 0, 0, 0] ++ [0, 0, 0, 0, 0, 0, 0, 6] ++ [0, 0]

def c7TableJa : OldSS := ⟨mkCBuf c7BytesJa, 234, FSM.READ_ROW, 0, [], 0, initColInfo⟩

/-- C7.  On a pre-JA file, when the current partition is exhausted
(remaining-columns counter at zero) `read_column` returns `false` but
leaves the machine in `READ_COLUMN`, not `READ_ROW` — so the assertion
`assert(fsm == READ_ROW)` at the head of the subsequent `read_row`
(`SSTable.cpp:339`) is violated.  On a JA+ stream the empty-name
terminator path does park the machine at `READ_ROW`. -/
theorem c7_prejA_exhaustion_not_read_row :
    ((readRowO c7TableIb).1 = false ∧
     (readRowO c7TableIb).2.fsm = FSM.READ_COLUMN ∧
     (readColumnO (readRowO c7TableIb).2).1 = false ∧
     (readColumnO (readRowO c7TableIb).2).2.fsm = FSM.READ_COLUMN) ∧
    ((readRowO c7TableJa).1 = false ∧
     (readRowO c7TableJa).2.fsm = FSM.READ_ROW) := by
  refine ⟨⟨by decide, by decide, by decide, by decide⟩, by decide, by decide⟩

/-! ## Sharing of `SStable::data_buffer` under `duplicate()` (`SSTable.hpp`)

`SStable` holds `std::shared_ptr<Buffer> data_buffer` (`SSTable.hpp:31`),
and both `OldSStable::duplicate` and `NewSStable::duplicate` are
`new OldSStable(*this)` / `new NewSStable(*this)`: the implicitly generated
copy constructor copies the `shared_ptr`, so an original and its duplicate
refer to the SAME `Buffer` object.  A `CompressedBuffer`'s decode position
is its mutable member `file_offset`, advanced by every `read_bytes` /
`skip_bytes`.  The model makes the heap explicit: buffers live in a heap
indexed by identity, a reader holds the identity (the `shared_ptr`), and
duplication copies the identity without allocating. -/

/-- One heap-allocated `CompressedBuffer`: its logical byte stream and its
mutable `file_offset`. -/
structure HBuf where
  data : Bytes
  file_offset : Nat
deriving DecidableEq

/-- The buffer heap: index = object identity of a `shared_ptr` target. -/
abbrev Heap := List HBuf

/-- The buffer-owning part of an `SStable`: `data_buffer` is either null
(closed) or the identity of a heap buffer. -/
structure Reader where
  data_buffer : Option Nat
deriving DecidableEq

/-- `duplicate()`: the member-wise copy constructor.  All scalar members
are copied; the `shared_ptr data_buffer` is copied as a pointer, so the
duplicate holds the same heap identity (no new buffer is allocated). -/
def duplicateReader (r : Reader) : Reader := r

/-- One byte read through a reader's data buffer: returns the byte at the
shared `file_offset` and advances that offset in the heap. -/
def readByteShared (h : Heap) (r : Reader) : Nat × Heap :=
  match r.data_buffer with
  | none => (0, h)
  | some bid =>
    match h.get? bid with
    | none => (0, h)
    | some c => (c.data.getD c.file_offset 0,
                 h.set bid { c with file_offset := c.file_offset + 1 })

/-- C9.  Duplicating a reader with an open data buffer shares that buffer:
the duplicate's `data_buffer` is the very same object, and one read through
the duplicate advances the shared `file_offset`, changing the byte the
original subsequently decodes (20 instead of 10).  The original's reader
state and output are NOT left unchanged by operations on the duplicate. -/
theorem c9_duplicate_shares_data_buffer :
    (duplicateReader ⟨some 0⟩).data_buffer = (Reader.mk (some 0)).data_buffer ∧
    (readByteShared [⟨[10, 20], 0⟩] ⟨some 0⟩).1 = 10 ∧
    (readByteShared
      (readByteShared [⟨[10, 20], 0⟩] (duplicateReader ⟨some 0⟩)).2
      ⟨some 0⟩).1 = 20 ∧
    (20 : Nat) ≠ 10 := by
  refine ⟨rfl, by decide, by decide, by decide⟩

/-! ## Monotonicity of the emitted partition keys (C4)

The partitioner-induced key comparison is a total preorder: `compare_token`
is transitive and antisymmetric in sign.  Under those two properties, and
the spec's assumption that each file's successive partition keys are
non-decreasing, the keys passed to `new_row` are non-decreasing. -/

/-- Transitivity of the partitioner comparison (`a ≤ b ≤ c → a ≤ c`). -/
def CmpTrans (cmp : Cmp) : Prop :=
  ∀ a b c, cmp a b ≤ 0 → cmp b c ≤ 0 → cmp a c ≤ 0

/-- Sign antisymmetry of the partitioner comparison. -/
def CmpFlip (cmp : Cmp) : Prop :=
  ∀ a b, 0 < cmp a b ↔ cmp b a < 0

theorem cmpRefl {cmp : Cmp} (hf : CmpFlip cmp) (a : Bytes) : cmp a a = 0 := by
  have := hf a a
  omega

theorem cmpZeroSymm {cmp : Cmp} (hf : CmpFlip cmp) {a b : Bytes}
    (h : cmp a b = 0) : cmp b a = 0 := by
  have h1 := hf a b
  have h2 := hf b a
  omega

theorem byteOrderCmp_trans : CmpTrans byteOrderCmp :=
  fun a b c => memCmpLen_trans_le a b c

theorem byteOrderCmp_isFlip : CmpFlip byteOrderCmp :=
  fun a b => byteOrderCmp_flip a b

/-- The key stream of one reader: current partition key then the rest. -/
def tKeys (t : TState) : List Bytes := t.cur.key :: t.rest.map Part.key

/-- Within one file, successive partition keys are non-decreasing. -/
def tSorted (cmp : Cmp) (t : TState) : Prop :=
  List.Chain' (fun a b => cmp a b ≤ 0) (tKeys t)

/-- The structural invariant of the merge iterator state. -/
structure Inv (cmp : Cmp) (st : MState) : Prop where
  sorted : ∀ t ∈ st.tables, tSorted cmp t
  suffix : List.Pairwise (fun a b => cmp a.nextKey b.nextKey ≤ 0)
    (st.tables.drop st.nextTable)
  activeLt : ∀ i ∈ st.active, i < st.nextTable
  ntLe : st.nextTable ≤ st.tables.length

/-- An optional lower bound on a key. -/
def olle (cmp : Cmp) : Option Bytes → Bytes → Prop
  | none, _ => True
  | some l, k => cmp l k ≤ 0

/-- Every key the iterator can still produce is bounded below by `lo`. -/
def LB (cmp : Cmp) (st : MState) (lo : Option Bytes) : Prop :=
  (∀ i ∈ st.active, olle cmp lo (getT st i).nextKey) ∧
  (∀ j, st.nextTable ≤ j → j < st.tables.length →
    olle cmp lo (getT st j).nextKey)

/-- Chain of non-decreasing keys, optionally anchored below at `lo`. -/
def ChainO (cmp : Cmp) (lo : Option Bytes) (ks : List Bytes) : Prop :=
  List.Chain' (fun a b => cmp a b ≤ 0) (lo.toList ++ ks)

/-- The last key of the anchored chain (the new anchor). -/
def lastO (lo : Option Bytes) (ks : List Bytes) : Option Bytes :=
  (lo.toList ++ ks).getLast?

theorem getD_set_ne {α : Type} (l : List α) (i j : Nat) (v d : α) (h : i ≠ j) :
    (l.set i v).getD j d = l.getD j d := by
  induction l generalizing i j with
  | nil => simp [List.set]
  | cons x xs ih =>
    cases i with
    | zero =>
      cases j with
      | zero => exact absurd rfl h
      | succ j => simp [List.set, List.getD]
    | succ i =>
      cases j with
      | zero => simp [List.set, List.getD]
      | succ j =>
        simp only [List.set, List.getD_cons_succ]
        exact ih i j (fun hc => h (by rw [hc]))

theorem getD_set_self {α : Type} (l : List α) (i : Nat) (v d : α)
    (h : i < l.length) : (l.set i v).getD i d = v := by
  induction l generalizing i with
  | nil => simp at h
  | cons x xs ih =>
    cases i with
    | zero => rfl
    | succ i =>
      simp only [List.set, List.getD_cons_succ]
      exact ih i (by simpa using h)

theorem mem_insertSorted {i j : Nat} {l : List Nat} :
    j ∈ insertSorted i l → j = i ∨ j ∈ l := by
  induction l with
  | nil => intro h; simp [insertSorted] at h; exact Or.inl h
  | cons x xs ih =>
    intro h
    simp only [insertSorted] at h
    split at h
    · rcases List.mem_cons.mp h with h | h
      · exact Or.inl h
      · exact Or.inr h
    · split at h
      · exact Or.inr h
      · rcases List.mem_cons.mp h with h | h
        · exact Or.inr (h ▸ List.mem_cons_self x xs)
        · rcases ih h with h | h
          · exact Or.inl h
          · exact Or.inr (List.mem_cons_of_mem x h)

theorem rowKeys_nil_of_no_newRow {evs : List Event}
    (h : ∀ e ∈ evs, isRowEvent e = false) : rowKeys evs = [] := by
  induction evs with
  | nil => rfl
  | cons e evs ih =>
    have he := h e (List.mem_cons_self e evs)
    cases e with
    | newRow k => simp [isRowEvent] at he
    | newCol n v ts =>
      simp only [rowKeys, List.filterMap_cons]
      exact ih (fun e' he' => h e' (List.mem_cons_of_mem _ he'))
    | newColTTL n v ts ttl ex =>
      simp only [rowKeys, List.filterMap_cons]
      exact ih (fun e' he' => h e' (List.mem_cons_of_mem _ he'))

theorem rowKeys_append (a b : List Event) :
    rowKeys (a ++ b) = rowKeys a ++ rowKeys b := by
  simp [rowKeys]

/-- The key of the first element of a match set. -/
def hkOf (st : MState) (ms : List Nat) : Bytes := (getT st (ms.headD 0)).nextKey

/-- One `match_table` step preserves the scan invariant: the match set
holds exactly the scanned indices tied for the minimum, and the minimum
bounds everything scanned so far. -/
theorem matchTable_step (cmp : Cmp) (ht : CmpTrans cmp) (hf : CmpFlip cmp)
    (st : MState) (i : Nat) (ms0 scanned : List Nat)
    (h1 : ∀ m ∈ ms0, m ∈ scanned ∧ cmp (hkOf st ms0) (getT st m).nextKey = 0)
    (h2 : ∀ s ∈ scanned, cmp (hkOf st ms0) (getT st s).nextKey ≤ 0)
    (h3 : ms0 = [] → scanned = []) :
    (∀ m ∈ (matchTable cmp st ms0 i).1,
        m ∈ scanned ++ [i] ∧
        cmp (hkOf st (matchTable cmp st ms0 i).1) (getT st m).nextKey = 0) ∧
    (∀ s ∈ scanned ++ [i],
        cmp (hkOf st (matchTable cmp st ms0 i).1) (getT st s).nextKey ≤ 0) ∧
    ((matchTable cmp st ms0 i).1 = [] → scanned ++ [i] = []) := by
  cases ms0 with
  | nil =>
    have hsc : scanned = [] := h3 rfl
    subst hsc
    refine ⟨?_, ?_, ?_⟩
    · intro m hm
      simp only [matchTable, List.mem_singleton] at hm
      subst hm
      exact ⟨by simp, cmpRefl hf _⟩
    · intro s hs
      simp only [List.nil_append, List.mem_singleton] at hs
      subst hs
      exact le_of_eq (cmpRefl hf _)
    · intro hcontra
      simp [matchTable] at hcontra
  | cons m0 ms0' =>
    have hk0 : hkOf st (m0 :: ms0') = (getT st m0).nextKey := rfl
    simp only [matchTable]
    rcases lt_trichotomy (cmp (getT st i).nextKey (getT st m0).nextKey) 0
      with hc | hc | hc
    · rw [if_pos hc]
      refine ⟨?_, ?_, by simp⟩
      · intro m hm
        rcases List.mem_singleton.mp hm with rfl
        exact ⟨by simp, cmpRefl hf _⟩
      · intro s hs
        rcases List.mem_append.mp hs with hs | hs
        · exact ht _ _ _ (le_of_lt hc) (h2 s hs)
        · rcases List.mem_singleton.mp hs with rfl
          exact le_of_eq (cmpRefl hf _)
    · rw [if_neg (by omega), if_pos hc]
      have hkapp : hkOf st ((m0 :: ms0') ++ [i]) = (getT st m0).nextKey := rfl
      refine ⟨?_, ?_, by simp⟩
      · intro m hm
        rcases List.mem_append.mp hm with hm | hm
        · exact ⟨List.mem_append_left _ (h1 m hm).1, by
            rw [hkapp]
            exact (h1 m hm).2⟩
        · rcases List.mem_singleton.mp hm with rfl
          rw [hkapp]
          exact ⟨by simp, cmpZeroSymm hf hc⟩
      · intro s hs
        rw [hkapp]
        rcases List.mem_append.mp hs with hs | hs
        · exact h2 s hs
        · rcases List.mem_singleton.mp hs with rfl
          exact le_of_eq (cmpZeroSymm hf hc)
    · rw [if_neg (by omega), if_neg (by omega)]
      refine ⟨?_, ?_, by simp⟩
      · intro m hm
        exact ⟨List.mem_append_left _ (h1 m hm).1, (h1 m hm).2⟩
      · intro s hs
        rcases List.mem_append.mp hs with hs | hs
        · exact h2 s hs
        · have hsi : s = i := List.mem_singleton.mp hs
          rw [hsi]
          exact le_of_lt ((hf (getT st i).nextKey (getT st m0).nextKey).mp hc)

/-- Invariant of the `match_table` fold over the active set. -/
theorem matchFold_spec (cmp : Cmp) (ht : CmpTrans cmp) (hf : CmpFlip cmp)
    (st : MState) :
    ∀ (l ms0 scanned : List Nat),
      (∀ m ∈ ms0, m ∈ scanned ∧ cmp (hkOf st ms0) (getT st m).nextKey = 0) →
      (∀ s ∈ scanned, cmp (hkOf st ms0) (getT st s).nextKey ≤ 0) →
      (ms0 = [] → scanned = []) →
      (∀ m ∈ l.foldl (fun ms i => (matchTable cmp st ms i).1) ms0,
          m ∈ scanned ++ l ∧
          cmp (hkOf st (l.foldl (fun ms i => (matchTable cmp st ms i).1) ms0))
            (getT st m).nextKey = 0) ∧
      (∀ s ∈ scanned ++ l,
          cmp (hkOf st (l.foldl (fun ms i => (matchTable cmp st ms i).1) ms0))
            (getT st s).nextKey ≤ 0) ∧
      (l.foldl (fun ms i => (matchTable cmp st ms i).1) ms0 = [] →
        scanned ++ l = []) := by
  intro l
  induction l with
  | nil =>
    intro ms0 scanned h1 h2 h3
    simpa using ⟨h1, h2, h3⟩
  | cons i l ih =>
    intro ms0 scanned h1 h2 h3
    have hstep := matchTable_step cmp ht hf st i ms0 scanned h1 h2 h3
    have hne : (matchTable cmp st ms0 i).1 = [] → scanned ++ [i] = [] :=
      hstep.2.2
    have := ih (matchTable cmp st ms0 i).1 (scanned ++ [i]) hstep.1 hstep.2.1
      (fun h => absurd (hne h) (by simp))
    simp only [List.foldl_cons]
    refine ⟨?_, ?_, ?_⟩
    · intro m hm
      obtain ⟨hmem, hcmp⟩ := this.1 m hm
      refine ⟨?_, hcmp⟩
      rw [List.append_assoc] at hmem
      simpa using hmem
    · intro s hs
      apply this.2.1
      rw [List.append_assoc]
      simpa using hs
    · intro h
      exact absurd (this.2.2 h) (by simp)

theorem getD_drop {α : Type} (l : List α) (n k : Nat) (d : α) :
    (l.drop n).getD k d = l.getD (n + k) d := by
  induction l generalizing n with
  | nil => simp
  | cons x xs ih =>
    cases n with
    | zero => simp
    | succ n =>
      simp only [List.drop_succ_cons]
      rw [ih n]
      have he : n + 1 + k = (n + k) + 1 := by omega
      rw [he, List.getD_cons_succ]

theorem pairwise_drop_getD {R : TState → TState → Prop} {l : List TState}
    {n : Nat} (hp : List.Pairwise R (l.drop n)) {i j : Nat} (d : TState)
    (hni : n ≤ i) (hij : i < j) (hj : j < l.length) :
    R (l.getD i d) (l.getD j d) := by
  have hi' : i - n < (l.drop n).length := by
    rw [List.length_drop]
    omega
  have hj' : j - n < (l.drop n).length := by
    rw [List.length_drop]
    omega
  have h := (List.pairwise_iff_getElem.mp hp) (i - n) (j - n) hi' hj' (by omega)
  have e1 : (l.drop n).getD (i - n) d = l.getD i d := by
    rw [getD_drop]
    congr 1
    omega
  have e2 : (l.drop n).getD (j - n) d = l.getD j d := by
    rw [getD_drop]
    congr 1
    omega
  have g1 : (l.drop n).getD (i - n) d = (l.drop n)[i - n] := by
    rw [List.getD_eq_getElem?_getD, List.getElem?_eq_getElem hi']
    rfl
  have g2 : (l.drop n).getD (j - n) d = (l.drop n)[j - n] := by
    rw [List.getD_eq_getElem?_getD, List.getElem?_eq_getElem hj']
    rfl
  rw [← e1, ← e2, g1, g2]
  exact h

/-- What `find_first_row_matches`'s opening loop guarantees: the match
set holds minimum-key indices drawn from the scanned set or the newly
opened range, the minimum bounds everything scanned and everything still
unopened, and the invariant is maintained. -/
structure FFRMOut (cmp : Cmp) (st : MState) (scanned : List Nat)
    (r : List Nat × MState) : Prop where
  tablesEq : r.2.tables = st.tables
  ntGe : st.nextTable ≤ r.2.nextTable
  ntLe : r.2.nextTable ≤ st.tables.length
  activeSub : ∀ i ∈ r.2.active,
    i ∈ st.active ∨ (st.nextTable ≤ i ∧ i < r.2.nextTable)
  matchMem : ∀ m ∈ r.1,
    (m ∈ scanned ∨ (st.nextTable ≤ m ∧ m < r.2.nextTable)) ∧
    cmp (hkOf st r.1) (getT st m).nextKey = 0
  scannedBound : ∀ s ∈ scanned, cmp (hkOf st r.1) (getT st s).nextKey ≤ 0
  unopenedBound : ∀ j, st.nextTable ≤ j → j < st.tables.length →
    cmp (hkOf st r.1) (getT st j).nextKey ≤ 0
  emptyCase : r.1 = [] → scanned = [] ∧ r.2 = st ∧
    st.tables.length ≤ st.nextTable
  invOut : Inv cmp r.2

theorem ffrmOpenLoop_spec (cmp : Cmp) (ht : CmpTrans cmp) (hf : CmpFlip cmp) :
    ∀ (fuel : Nat) (st : MState) (ms0 scanned : List Nat),
      fuel = st.tables.length - st.nextTable →
      Inv cmp st →
      (∀ s ∈ scanned, s < st.nextTable) →
      (∀ m ∈ ms0, m ∈ scanned ∧ cmp (hkOf st ms0) (getT st m).nextKey = 0) →
      (∀ s ∈ scanned, cmp (hkOf st ms0) (getT st s).nextKey ≤ 0) →
      (ms0 = [] → scanned = []) →
      FFRMOut cmp st scanned (ffrmOpenLoop cmp fuel st ms0) := by
  intro fuel
  induction fuel with
  | zero =>
    intro st ms0 scanned hfuel hinv hsc h1 h2 h3
    have hnt : st.tables.length ≤ st.nextTable := by omega
    refine ⟨rfl, le_refl _, hinv.ntLe, ?_, ?_, h2, ?_, ?_, hinv⟩
    · intro i hi
      exact Or.inl hi
    · intro m hm
      exact ⟨Or.inl (h1 m hm).1, (h1 m hm).2⟩
    · intro j hj1 hj2
      omega
    · intro h
      exact ⟨h3 h, rfl, hnt⟩
  | succ fuel ih =>
    intro st ms0 scanned hfuel hinv hsc h1 h2 h3
    have hlt : st.nextTable < st.tables.length := by omega
    rw [ffrmOpenLoop]
    simp only [if_pos hlt]
    have hstep := matchTable_step cmp ht hf st st.nextTable ms0 scanned h1 h2 h3
    by_cases hok : (matchTable cmp st ms0 st.nextTable).2 = true
    · simp only [hok, if_true]
      set st' : MState :=
        activateTable { st with nextTable := st.nextTable + 1 } st.nextTable
        with hst'
      have htb : st'.tables = st.tables := rfl
      have hnt' : st'.nextTable = st.nextTable + 1 := rfl
      have hact' : st'.active = insertSorted st.nextTable st.active := rfl
      have hgetT : ∀ x, getT st' x = getT st x := fun _ => rfl
      have hlen : st'.tables.length = st.tables.length := by rw [htb]
      have hinv' : Inv cmp st' := by
        refine ⟨?_, ?_, ?_, ?_⟩
        · intro t htmem
          exact hinv.sorted t htmem
        · have hsub : (st.tables.drop (st.nextTable + 1)).Sublist
              (st.tables.drop st.nextTable) := by
            rw [← List.drop_drop]
            exact List.drop_sublist 1 _
          exact hinv.suffix.sublist hsub
        · intro i hi
          rcases mem_insertSorted hi with h | h
          · omega
          · have := hinv.activeLt i h
            omega
        · omega
      have hr := ih st' (matchTable cmp st ms0 st.nextTable).1
        (scanned ++ [st.nextTable])
        (by omega)
        hinv'
        (by
          intro s hs
          rcases List.mem_append.mp hs with hs | hs
          · have := hsc s hs
            omega
          · rcases List.mem_singleton.mp hs with rfl
            omega)
        hstep.1 hstep.2.1
        (fun h => absurd (hstep.2.2 h) (by simp))
      refine ⟨?_, ?_, ?_, ?_, ?_, ?_, ?_, ?_, ?_⟩
      · rw [hr.tablesEq, htb]
      · have := hr.ntGe
        omega
      · have := hr.ntLe
        rw [htb] at this
        exact this
      · intro i hi
        rcases hr.activeSub i hi with h | h
        · rw [hact'] at h
          rcases mem_insertSorted h with h | h
          · subst h
            right
            constructor
            · omega
            · have := hr.ntGe
              omega
          · exact Or.inl h
        · right
          omega
      · intro m hm
        obtain ⟨hmem, hcmp⟩ := hr.matchMem m hm
        refine ⟨?_, hcmp⟩
        rcases hmem with h | h
        · rcases List.mem_append.mp h with h | h
          · exact Or.inl h
          · rcases List.mem_singleton.mp h with rfl
            right
            constructor
            · omega
            · have := hr.ntGe
              omega
        · right
          omega
      · intro s hs
        exact hr.scannedBound s (List.mem_append_left _ hs)
      · intro j hj1 hj2
        by_cases hje : j = st.nextTable
        · subst hje
          exact hr.scannedBound st.nextTable (List.mem_append_right _ (by simp))
        · have hj1' : st'.nextTable ≤ j := by omega
          have hj2' : j < st'.tables.length := by
            rw [hlen]
            exact hj2
          exact hr.unopenedBound j hj1' hj2'
      · intro h
        exfalso
        exact absurd ((hr.emptyCase h).1) (by simp)
      · exact hr.invOut
    · simp only [Bool.not_eq_true] at hok
      simp only [hok, Bool.false_eq_true, if_false]
      have hms0ne : ms0 ≠ [] := by
        intro hcontra
        subst hcontra
        simp [matchTable] at hok
      obtain ⟨m0, ms0', rfl⟩ := List.exists_cons_of_ne_nil hms0ne
      have hcgt : 0 < cmp (getT st st.nextTable).nextKey (getT st m0).nextKey := by
        by_contra hcontra
        push_neg at hcontra
        rcases lt_or_eq_of_le hcontra with hc | hc
        · simp [matchTable, if_pos hc] at hok
        · simp only [matchTable] at hok
          rw [if_neg (by omega : ¬ cmp (getT st st.nextTable).nextKey (getT st m0).nextKey < 0), if_pos hc] at hok
          simp at hok
      have hhk : hkOf st (m0 :: ms0') = (getT st m0).nextKey := rfl
      have hnts : cmp (hkOf st (m0 :: ms0')) (getT st st.nextTable).nextKey < 0 := by
        rw [hhk]
        exact (hf _ _).mp hcgt
      refine ⟨rfl, le_refl _, hinv.ntLe, fun i hi => Or.inl hi, ?_, h2, ?_, ?_, hinv⟩
      · intro m hm
        exact ⟨Or.inl (h1 m hm).1, (h1 m hm).2⟩
      · intro j hj1 hj2
        by_cases hje : j = st.nextTable
        · subst hje
          exact le_of_lt hnts
        · have hpair : cmp (getT st st.nextTable).nextKey (getT st j).nextKey ≤ 0 := by
            have := pairwise_drop_getD hinv.suffix (default : TState)
              (le_refl st.nextTable) (by omega : st.nextTable < j) hj2
            exact this
          exact ht _ _ _ (le_of_lt hnts) hpair
      · intro h
        simp at h

theorem mem_removeSwap {l : List Nat} {x y : Nat} (h : y ∈ removeSwap l x) :
    y ∈ l := by
  simp only [removeSwap] at h
  split at h
  · rename_i hp
    have hl : l ≠ [] := by
      intro h0
      subst h0
      simp at hp
    have h1 : y ∈ l.set (l.indexOf x) (l.getLast?.getD 0) :=
      List.mem_of_mem_dropLast h
    rcases List.mem_or_eq_of_mem_set h1 with h2 | h2
    · exact h2
    · rw [h2, List.getLast?_eq_getLast l hl]
      exact List.getLast_mem hl
  · exact h

theorem drop_set_lt {α : Type} (l : List α) (i n : Nat) (v : α) (h : i < n) :
    (l.set i v).drop n = l.drop n := by
  induction l generalizing i n with
  | nil => simp
  | cons x xs ih =>
    cases i with
    | zero =>
      cases n with
      | zero => omega
      | succ n => simp
    | succ i =>
      cases n with
      | zero => omega
      | succ n =>
        simp only [List.set, List.drop_succ_cons]
        exact ih i n (by omega)

theorem getT_setT_ne (st : MState) (i j : Nat) (t : TState) (h : i ≠ j) :
    getT (setT st i t) j = getT st j :=
  getD_set_ne _ _ _ _ _ h

theorem getT_setT_self (st : MState) (i : Nat) (t : TState)
    (h : i < st.tables.length) : getT (setT st i t) i = t :=
  getD_set_self _ _ _ _ h

theorem tSorted_default (cmp : Cmp) : tSorted cmp (default : TState) := by
  have hr : (default : TState).rest = [] := rfl
  simp [tSorted, tKeys, hr]

theorem sorted_getT {cmp : Cmp} {st : MState}
    (h : ∀ t ∈ st.tables, tSorted cmp t) (j : Nat) :
    tSorted cmp (getT st j) := by
  unfold getT
  by_cases hj : j < st.tables.length
  · have : st.tables.getD j default = st.tables[j] := by
      rw [List.getD_eq_getElem?_getD, List.getElem?_eq_getElem hj]
      rfl
    rw [this]
    exact h _ (List.getElem_mem hj)
  · rw [List.getD_eq_getElem?_getD, List.getElem?_eq_none (by omega)]
    exact tSorted_default cmp

theorem readColumn_key (t : TState) : (t.readColumn).2.nextKey = t.nextKey := by
  cases hc : t.cur.cells <;> simp [TState.readColumn, hc, TState.nextKey]

theorem readColumn_sorted (cmp : Cmp) (t : TState) (h : tSorted cmp t) :
    tSorted cmp (t.readColumn).2 := by
  cases hc : t.cur.cells with
  | nil => simpa [TState.readColumn, hc] using h
  | cons c cs => simpa [TState.readColumn, hc, tSorted, tKeys] using h

theorem readRow_adv (cmp : Cmp) (hf : CmpFlip cmp) (t : TState)
    (h : tSorted cmp t) :
    tSorted cmp (t.readRow).2 ∧ cmp t.nextKey (t.readRow).2.nextKey ≤ 0 := by
  cases hr : t.rest with
  | nil =>
    constructor
    · simpa [TState.readRow, hr] using h
    · simp only [TState.readRow, hr]
      exact le_of_eq (cmpRefl hf _)
  | cons p ps =>
    have h' : List.Chain' (fun a b => cmp a b ≤ 0)
        (t.cur.key :: p.key :: ps.map Part.key) := by
      simpa [tSorted, tKeys, hr] using h
    obtain ⟨hrel, hchain⟩ := List.chain'_cons.mp h'
    constructor
    · simpa [TState.readRow, hr, tSorted, tKeys] using hchain
    · simpa [TState.readRow, hr, TState.nextKey] using hrel

/-- Effect of one advance step on the reader states: every table's key can
only move forward in its own (sorted) stream, the active set only shrinks,
and the unopened suffix of the table vector is untouched. -/
theorem advStep_adv (cmp : Cmp) (hf : CmpFlip cmp)
    (acc : MState × List Nat) (i : Nat) (hi1 : i < acc.1.nextTable)
    (hi2 : i < acc.1.tables.length) :
    (∀ j, tSorted cmp (getT acc.1 j) →
      tSorted cmp (getT (advStep acc i).1 j) ∧
      cmp (getT acc.1 j).nextKey (getT (advStep acc i).1 j).nextKey ≤ 0) ∧
    (∀ j ∈ (advStep acc i).1.active, j ∈ acc.1.active) ∧
    (advStep acc i).1.tables.length = acc.1.tables.length ∧
    (advStep acc i).1.nextTable = acc.1.nextTable ∧
    ((advStep acc i).1.tables.drop acc.1.nextTable =
      acc.1.tables.drop acc.1.nextTable) ∧
    (∀ y ∈ (advStep acc i).2, y ∈ acc.2) := by
  simp only [advStep]
  split
  · refine ⟨?_, fun j hj => hj, by simp [setT], rfl, ?_, fun y hy => hy⟩
    · intro j hs
      by_cases hij : i = j
      · subst hij
        rw [getT_setT_self _ _ _ hi2]
        refine ⟨readColumn_sorted cmp _ hs, ?_⟩
        rw [readColumn_key]
        exact le_of_eq (cmpRefl hf _)
      · rw [getT_setT_ne _ _ _ _ hij]
        exact ⟨hs, le_of_eq (cmpRefl hf _)⟩
    · exact drop_set_lt _ _ _ _ hi1
  · have hkey : ∀ j, tSorted cmp (getT acc.1 j) →
        tSorted cmp (getT (setT (setT acc.1 i
          (getT acc.1 i).readColumn.2) i
          (getT acc.1 i).readColumn.2.readRow.2) j) ∧
        cmp (getT acc.1 j).nextKey
          (getT (setT (setT acc.1 i (getT acc.1 i).readColumn.2) i
            (getT acc.1 i).readColumn.2.readRow.2) j).nextKey ≤ 0 := by
      intro j hs
      by_cases hij : i = j
      · subst hij
        have hlen2 : i < (setT acc.1 i (getT acc.1 i).readColumn.2).tables.length := by
          simpa [setT] using hi2
        rw [getT_setT_self _ _ _ hlen2]
        have hsc : tSorted cmp (getT acc.1 i).readColumn.2 :=
          readColumn_sorted cmp _ hs
        obtain ⟨hs2, hk2⟩ := readRow_adv cmp hf _ hsc
        refine ⟨hs2, ?_⟩
        rw [readColumn_key] at hk2
        exact hk2
      · rw [getT_setT_ne _ _ _ _ hij, getT_setT_ne _ _ _ _ hij]
        exact ⟨hs, le_of_eq (cmpRefl hf _)⟩
    have hdrop : (setT (setT acc.1 i (getT acc.1 i).readColumn.2) i
        (getT acc.1 i).readColumn.2.readRow.2).tables.drop acc.1.nextTable =
        acc.1.tables.drop acc.1.nextTable := by
      simp only [setT]
      rw [drop_set_lt _ _ _ _ hi1, drop_set_lt _ _ _ _ hi1]
    split
    · refine ⟨hkey, ?_, by simp [setT, deactivateTable], by simp [setT, deactivateTable], ?_, ?_⟩
      · intro j hj
        simp only [deactivateTable, setT, List.mem_filter] at hj
        exact hj.1
      · simpa [deactivateTable] using hdrop
      · intro y hy
        exact mem_removeSwap hy
    · refine ⟨hkey, fun j hj => by simpa [setT] using hj, by simp [setT], rfl, hdrop, ?_⟩
      intro y hy
      exact mem_removeSwap hy

theorem ffcmFold_mem (st : MState) :
    ∀ (l : List Nat) (acc : List Nat × Option Bytes) (x : Nat),
      x ∈ (l.foldl (ffcmStep st) acc).1 → x ∈ acc.1 ∨ x ∈ l := by
  intro l
  induction l with
  | nil =>
    intro acc x h
    exact Or.inl h
  | cons i l ih =>
    intro acc x h
    simp only [List.foldl_cons] at h
    rcases ih _ x h with h1 | h1
    · obtain ⟨a1, a2⟩ := acc
      have hstep : x ∈ a1 ∨ x = i := by
        simp only [ffcmStep] at h1
        cases a2 with
        | none =>
          simp at h1
          exact Or.inr h1
        | some mn =>
          simp only at h1
          split at h1
          · simp at h1
            exact Or.inr h1
          · split at h1
            · rcases List.mem_append.mp h1 with h2 | h2
              · exact Or.inl h2
              · exact Or.inr (List.mem_singleton.mp h2)
            · exact Or.inl h1
      rcases hstep with h2 | h2
      · exact Or.inl h2
      · exact Or.inr (h2 ▸ List.mem_cons_self i l)
    · exact Or.inr (List.mem_cons_of_mem i h1)

/-- `find_first_column_matches` only returns indices drawn from the row
matches. -/
theorem ffcm_mem (st : MState) (rms : List Nat) :
    ∀ x ∈ ffcm st rms, x ∈ rms := by
  intro x h
  simp only [ffcm] at h
  rcases ffcmFold_mem st rms ([], none) x h with h1 | h1
  · simp at h1
  · exact h1

/-- Effect of the advance fold: keys move forward, active shrinks, the
unopened suffix is untouched, and the surviving row matches come from the
input row matches. -/
theorem advanceMatched_adv (cmp : Cmp) (ht : CmpTrans cmp) (hf : CmpFlip cmp) :
    ∀ (mc : List Nat) (st : MState) (rms : List Nat),
      (∀ i ∈ mc, i < st.nextTable ∧ i < st.tables.length) →
      (∀ j, tSorted cmp (getT st j)) →
      (∀ j, tSorted cmp (getT (advanceMatched st rms mc).1 j) ∧
        cmp (getT st j).nextKey
          (getT (advanceMatched st rms mc).1 j).nextKey ≤ 0) ∧
      (∀ i ∈ (advanceMatched st rms mc).1.active, i ∈ st.active) ∧
      (advanceMatched st rms mc).1.tables.length = st.tables.length ∧
      (advanceMatched st rms mc).1.nextTable = st.nextTable ∧
      ((advanceMatched st rms mc).1.tables.drop st.nextTable =
        st.tables.drop st.nextTable) ∧
      (∀ y ∈ (advanceMatched st rms mc).2, y ∈ rms) := by
  intro mc
  induction mc with
  | nil =>
    intro st rms hb hsort
    refine ⟨?_, fun i hi => hi, rfl, rfl, rfl, fun y hy => hy⟩
    intro j
    exact ⟨hsort j, le_of_eq (cmpRefl hf _)⟩
  | cons i mc ih =>
    intro st rms hb hsort
    have hi := hb i (List.mem_cons_self i mc)
    have hstep := advStep_adv cmp hf (st, rms) i hi.1 hi.2
    simp only at hstep
    have hsort' : ∀ j, tSorted cmp (getT (advStep (st, rms) i).1 j) :=
      fun j => (hstep.1 j (hsort j)).1
    have hb' : ∀ i' ∈ mc, i' < (advStep (st, rms) i).1.nextTable ∧
        i' < (advStep (st, rms) i).1.tables.length := by
      intro i' hi'
      have := hb i' (List.mem_cons_of_mem i hi')
      rw [hstep.2.2.2.1, hstep.2.2.1]
      exact this
    have hih := ih (advStep (st, rms) i).1 (advStep (st, rms) i).2 hb' hsort'
    simp only [advanceMatched, Prod.mk.eta] at hih
    simp only [advanceMatched, List.foldl_cons]
    refine ⟨?_, ?_, ?_, ?_, ?_, ?_⟩
    · intro j
      refine ⟨(hih.1 j).1, ?_⟩
      exact ht _ _ _ (hstep.1 j (hsort j)).2 (hih.1 j).2
    · intro x hx
      exact hstep.2.1 x (hih.2.1 x hx)
    · rw [hih.2.2.1, hstep.2.2.1]
    · rw [hih.2.2.2.1, hstep.2.2.2.1]
    · rw [hstep.2.2.2.1] at hih
      rw [hih.2.2.2.2.1, hstep.2.2.2.2.1]
    · intro y hy
      exact hstep.2.2.2.2.2 y (hih.2.2.2.2.2 y hy)

/-- Effect of the whole column loop on the merge state: reader keys only
move forward, the active set only shrinks, and the unopened suffix and
`m_next_table` are untouched. -/
theorem columnLoop_adv (cmp : Cmp) (ht : CmpTrans cmp) (hf : CmpFlip cmp) :
    ∀ (fuel : Nat) (st : MState) (rms : List Nat) (tombs : List (Bytes × Int))
      (mt mk : Int) (hc : Bool),
      (∀ i ∈ rms, i < st.nextTable ∧ i < st.tables.length) →
      (∀ j, tSorted cmp (getT st j)) →
      (∀ j, tSorted cmp (getT (columnLoop fuel st rms tombs mt mk hc).1 j) ∧
        cmp (getT st j).nextKey
          (getT (columnLoop fuel st rms tombs mt mk hc).1 j).nextKey ≤ 0) ∧
      (∀ i ∈ (columnLoop fuel st rms tombs mt mk hc).1.active,
        i ∈ st.active) ∧
      (columnLoop fuel st rms tombs mt mk hc).1.tables.length =
        st.tables.length ∧
      (columnLoop fuel st rms tombs mt mk hc).1.nextTable = st.nextTable ∧
      ((columnLoop fuel st rms tombs mt mk hc).1.tables.drop st.nextTable =
        st.tables.drop st.nextTable) := by
  intro fuel
  induction fuel with
  | zero =>
    intro st rms tombs mt mk hc hb hsort
    refine ⟨?_, fun i hi => hi, rfl, rfl, rfl⟩
    intro j
    exact ⟨hsort j, le_of_eq (cmpRefl hf _)⟩
  | succ fuel ih =>
    intro st rms tombs mt mk hc hb hsort
    simp only [columnLoop]
    cases hmc : ffcm st rms with
    | nil =>
      refine ⟨?_, fun i hi => hi, rfl, rfl, rfl⟩
      intro j
      exact ⟨hsort j, le_of_eq (cmpRefl hf _)⟩
    | cons i0 mcrest =>
      simp only
      have hmcb : ∀ i ∈ (i0 :: mcrest), i < st.nextTable ∧
          i < st.tables.length := by
        intro i hi
        exact hb i (ffcm_mem st rms i (hmc ▸ hi))
      have hadv := advanceMatched_adv cmp ht hf (i0 :: mcrest) st rms hmcb hsort
      have hb' : ∀ i ∈ (advanceMatched st rms (i0 :: mcrest)).2,
          i < (advanceMatched st rms (i0 :: mcrest)).1.nextTable ∧
          i < (advanceMatched st rms (i0 :: mcrest)).1.tables.length := by
        intro i hi
        have := hb i (hadv.2.2.2.2.2 i hi)
        rw [hadv.2.2.2.1, hadv.2.2.1]
        exact this
      have hsort' : ∀ j,
          tSorted cmp (getT (advanceMatched st rms (i0 :: mcrest)).1 j) :=
        fun j => (hadv.1 j).1
      have hih := ih (advanceMatched st rms (i0 :: mcrest)).1
        (advanceMatched st rms (i0 :: mcrest)).2
        (updateTombstones st tombs mt rms mk (getT st i0).nextColumn.name).1
        (updateTombstones st tombs mt rms mk (getT st i0).nextColumn.name).2
        mk
        (hc || emitTest (getT st i0).nextColumn.name
          (getT st (chooseLatest st (i0 :: mcrest))).nextColumn
          (updateTombstones st tombs mt rms mk (getT st i0).nextColumn.name).2)
        hb' hsort'
      refine ⟨?_, ?_, ?_, ?_, ?_⟩
      · intro j
        refine ⟨(hih.1 j).1, ?_⟩
        exact ht _ _ _ (hadv.1 j).2 (hih.1 j).2
      · intro x hx
        exact hadv.2.1 x (hih.2.1 x hx)
      · rw [hih.2.2.1, hadv.2.2.1]
      · rw [hih.2.2.2.1, hadv.2.2.2.1]
      · rw [hadv.2.2.2.1] at hih
        rw [hih.2.2.2.2, hadv.2.2.2.2.1]

/-- `find_first_row_matches` from an invariant state, scanning the live
active set. -/
theorem ffrm_spec (cmp : Cmp) (ht : CmpTrans cmp) (hf : CmpFlip cmp)
    (st : MState) (hinv : Inv cmp st) :
    FFRMOut cmp st st.active (findFirstRowMatches cmp st) := by
  have hfold := matchFold_spec cmp ht hf st st.active [] []
    (by intro m hm; simp at hm)
    (by intro s hs; simp at hs)
    (fun _ => rfl)
  simp only [List.nil_append] at hfold
  exact ffrmOpenLoop_spec cmp ht hf _ st (ffrmActive cmp st) st.active rfl hinv
    hinv.activeLt hfold.1 hfold.2.1 hfold.2.2

theorem chainO_nil (cmp : Cmp) (lo : Option Bytes) : ChainO cmp lo [] := by
  cases lo <;> simp [ChainO]

theorem lastO_nil (lo : Option Bytes) : lastO lo [] = lo := by
  cases lo <;> simp [lastO]

theorem lastO_cons (lo : Option Bytes) (m : Bytes) (ks : List Bytes) :
    lastO lo (m :: ks) = lastO (some m) ks := by
  cases lo with
  | none => rfl
  | some l =>
    show (l :: m :: ks).getLast? = (m :: ks).getLast?
    exact List.getLast?_cons_cons

theorem chainO_cons {cmp : Cmp} {lo : Option Bytes} {m : Bytes}
    {ks : List Bytes} (h1 : olle cmp lo m) (h2 : ChainO cmp (some m) ks) :
    ChainO cmp lo (m :: ks) := by
  cases lo with
  | none => exact h2
  | some l => exact List.chain'_cons.mpr ⟨h1, h2⟩

theorem chainO_append {cmp : Cmp} {lo : Option Bytes} {ks1 ks2 : List Bytes}
    (h1 : ChainO cmp lo ks1) (h2 : ChainO cmp (lastO lo ks1) ks2) :
    ChainO cmp lo (ks1 ++ ks2) := by
  unfold ChainO at h1 h2 ⊢
  unfold lastO at h2
  rw [← List.append_assoc, List.chain'_append]
  refine ⟨h1, ?_, ?_⟩
  · cases hlast : (lo.toList ++ ks1).getLast? with
    | none =>
      rw [hlast] at h2
      simpa using h2
    | some x =>
      rw [hlast] at h2
      simp only [Option.toList_some, List.singleton_append] at h2
      exact h2.tail
  · intro x hx y hy
    rw [Option.mem_def] at hx
    rw [hx] at h2
    simp only [Option.toList_some, List.singleton_append] at h2
    exact (List.chain'_cons'.mp h2).1 y hy

theorem sorted_of_getT {cmp : Cmp} {st : MState}
    (h : ∀ j, tSorted cmp (getT st j)) : ∀ t ∈ st.tables, tSorted cmp t := by
  intro t htm
  obtain ⟨n, hn, hget⟩ := List.getElem_of_mem htm
  have hg : getT st n = t := by
    unfold getT
    rw [List.getD_eq_getElem?_getD, List.getElem?_eq_getElem hn]
    exact hget
  rw [← hg]
  exact h n

/-- One `next_record` call from an invariant, lower-bounded state with a
nonempty active set: it announces exactly one row, whose key is above the
bound, and leaves an invariant state lower-bounded by that key. -/
theorem nextRecord_spec (cmp : Cmp) (ht : CmpTrans cmp) (hf : CmpFlip cmp)
    (st : MState) (lo : Option Bytes) (hinv : Inv cmp st)
    (hlb : LB cmp st lo) (hact : st.active ≠ []) :
    Inv cmp (nextRecord cmp st).2.1 ∧
    ∃ m, rowKeys (nextRecord cmp st).2.2 = [m] ∧ olle cmp lo m ∧
      LB cmp (nextRecord cmp st).2.1 (some m) := by
  have hff := ffrm_spec cmp ht hf st hinv
  have hfrne : (findFirstRowMatches cmp st).1 ≠ [] := by
    intro h
    exact hact (hff.emptyCase h).1
  obtain ⟨i0, rest, hfr⟩ := List.exists_cons_of_ne_nil hfrne
  have hgetT : ∀ x, getT (findFirstRowMatches cmp st).2 x = getT st x := by
    intro x
    unfold getT
    rw [hff.tablesEq]
  have hlen2 : (findFirstRowMatches cmp st).2.tables.length =
      st.tables.length := by
    rw [hff.tablesEq]
  have hsort2 : ∀ j, tSorted cmp (getT (findFirstRowMatches cmp st).2 j) := by
    intro j
    rw [hgetT]
    exact sorted_getT hinv.sorted j
  have hntle2 := hff.ntLe
  have hntge2 := hff.ntGe
  have hbounds : ∀ i ∈ (i0 :: rest),
      i < (findFirstRowMatches cmp st).2.nextTable ∧
      i < (findFirstRowMatches cmp st).2.tables.length := by
    intro i hi
    have hm := hff.matchMem i (hfr ▸ hi)
    have hlt : i < (findFirstRowMatches cmp st).2.nextTable := by
      rcases hm.1 with h | h
      · have h1 := hinv.activeLt i h
        omega
      · omega
    refine ⟨hlt, ?_⟩
    omega
  have hcl := columnLoop_adv cmp ht hf
    (colFuel (findFirstRowMatches cmp st).2 (i0 :: rest))
    (findFirstRowMatches cmp st).2 (i0 :: rest) []
    (markedFold (findFirstRowMatches cmp st).2 (i0 :: rest))
    (markedFold (findFirstRowMatches cmp st).2 (i0 :: rest)) false
    hbounds hsort2
  have hnorow := columnLoop_no_newRow
    (colFuel (findFirstRowMatches cmp st).2 (i0 :: rest))
    (findFirstRowMatches cmp st).2 (i0 :: rest) []
    (markedFold (findFirstRowMatches cmp st).2 (i0 :: rest))
    (markedFold (findFirstRowMatches cmp st).2 (i0 :: rest)) false
  have hK : (getT (findFirstRowMatches cmp st).2 i0).nextKey =
      hkOf st (i0 :: rest) := by
    unfold hkOf
    rw [hgetT]
    rfl
  have hmin : ∀ j, (j ∈ st.active ∨
      (st.nextTable ≤ j ∧ j < st.tables.length)) →
      cmp (getT (findFirstRowMatches cmp st).2 i0).nextKey
        (getT st j).nextKey ≤ 0 := by
    intro j hj
    rw [hK, ← hfr]
    rcases hj with h | h
    · exact hff.scannedBound j h
    · exact hff.unopenedBound j h.1 h.2
  have holleK : olle cmp lo (getT (findFirstRowMatches cmp st).2 i0).nextKey := by
    have hm := hff.matchMem i0 (by rw [hfr]; exact List.mem_cons_self _ _)
    rw [hgetT]
    rcases hm.1 with h | h
    · exact hlb.1 i0 h
    · exact hlb.2 i0 h.1 (by omega)
  have hInvCL : Inv cmp (columnLoop
      (colFuel (findFirstRowMatches cmp st).2 (i0 :: rest))
      (findFirstRowMatches cmp st).2 (i0 :: rest) []
      (markedFold (findFirstRowMatches cmp st).2 (i0 :: rest))
      (markedFold (findFirstRowMatches cmp st).2 (i0 :: rest)) false).1 := by
    refine ⟨sorted_of_getT (fun j => (hcl.1 j).1), ?_, ?_, ?_⟩
    · rw [hcl.2.2.2.1, hcl.2.2.2.2]
      exact hff.invOut.suffix
    · intro i hi
      rw [hcl.2.2.2.1]
      exact hff.invOut.activeLt i (hcl.2.1 i hi)
    · rw [hcl.2.2.2.1, hcl.2.2.1]
      exact hff.invOut.ntLe
  have hLB1 : ∀ i ∈ (columnLoop
      (colFuel (findFirstRowMatches cmp st).2 (i0 :: rest))
      (findFirstRowMatches cmp st).2 (i0 :: rest) []
      (markedFold (findFirstRowMatches cmp st).2 (i0 :: rest))
      (markedFold (findFirstRowMatches cmp st).2 (i0 :: rest)) false).1.active,
      cmp (getT (findFirstRowMatches cmp st).2 i0).nextKey
        (getT (columnLoop
          (colFuel (findFirstRowMatches cmp st).2 (i0 :: rest))
          (findFirstRowMatches cmp st).2 (i0 :: rest) []
          (markedFold (findFirstRowMatches cmp st).2 (i0 :: rest))
          (markedFold (findFirstRowMatches cmp st).2 (i0 :: rest)) false).1
          i).nextKey ≤ 0 := by
    intro i hi
    have hi2 := hcl.2.1 i hi
    have hstep : cmp (getT (findFirstRowMatches cmp st).2 i0).nextKey
        (getT st i).nextKey ≤ 0 := by
      rcases hff.activeSub i hi2 with h | h
      · exact hmin i (Or.inl h)
      · exact hmin i (Or.inr ⟨h.1, by omega⟩)
    rw [← hgetT i] at hstep
    exact ht _ _ _ hstep (hcl.1 i).2
  have hLB2 : ∀ j, (columnLoop
      (colFuel (findFirstRowMatches cmp st).2 (i0 :: rest))
      (findFirstRowMatches cmp st).2 (i0 :: rest) []
      (markedFold (findFirstRowMatches cmp st).2 (i0 :: rest))
      (markedFold (findFirstRowMatches cmp st).2 (i0 :: rest)) false).1.nextTable
        ≤ j →
      j < (columnLoop
        (colFuel (findFirstRowMatches cmp st).2 (i0 :: rest))
        (findFirstRowMatches cmp st).2 (i0 :: rest) []
        (markedFold (findFirstRowMatches cmp st).2 (i0 :: rest))
        (markedFold (findFirstRowMatches cmp st).2 (i0 :: rest)) false).1.tables.length →
      cmp (getT (findFirstRowMatches cmp st).2 i0).nextKey
        (getT (columnLoop
          (colFuel (findFirstRowMatches cmp st).2 (i0 :: rest))
          (findFirstRowMatches cmp st).2 (i0 :: rest) []
          (markedFold (findFirstRowMatches cmp st).2 (i0 :: rest))
          (markedFold (findFirstRowMatches cmp st).2 (i0 :: rest)) false).1
          j).nextKey ≤ 0 := by
    intro j hj1 hj2
    rw [hcl.2.2.2.1] at hj1
    rw [hcl.2.2.1] at hj2
    have hstep : cmp (getT (findFirstRowMatches cmp st).2 i0).nextKey
        (getT st j).nextKey ≤ 0 :=
      hmin j (Or.inr ⟨by omega, by omega⟩)
    rw [← hgetT j] at hstep
    exact ht _ _ _ hstep (hcl.1 j).2
  have hrk : rowKeys (Event.newRow
      (getT (findFirstRowMatches cmp st).2 i0).nextKey ::
      (columnLoop
        (colFuel (findFirstRowMatches cmp st).2 (i0 :: rest))
        (findFirstRowMatches cmp st).2 (i0 :: rest) []
        (markedFold (findFirstRowMatches cmp st).2 (i0 :: rest))
        (markedFold (findFirstRowMatches cmp st).2 (i0 :: rest)) false).2.2.2) =
      [(getT (findFirstRowMatches cmp st).2 i0).nextKey] := by
    have htail := rowKeys_nil_of_no_newRow hnorow
    simp only [rowKeys] at htail ⊢
    rw [List.filterMap_cons]
    simp only
    rw [htail]
  simp only [nextRecord, hfr]
  split
  · exact ⟨⟨hInvCL.sorted, hInvCL.suffix, hInvCL.activeLt, hInvCL.ntLe⟩,
      (getT (findFirstRowMatches cmp st).2 i0).nextKey, hrk, holleK,
      hLB1, hLB2⟩
  · exact ⟨⟨hInvCL.sorted, hInvCL.suffix, hInvCL.activeLt, hInvCL.ntLe⟩,
      (getT (findFirstRowMatches cmp st).2 i0).nextKey, hrk, holleK,
      hLB1, hLB2⟩

/-- `iterator::next` from an invariant, lower-bounded state: the row keys
it announces form a non-decreasing chain above the bound, and the final
state is invariant and bounded by the last announced key. -/
theorem nextIter_spec (cmp : Cmp) (ht : CmpTrans cmp) (hf : CmpFlip cmp) :
    ∀ (fuel : Nat) (st : MState) (lo : Option Bytes),
      Inv cmp st → LB cmp st lo →
      Inv cmp (nextIter cmp fuel st).2.1 ∧
      LB cmp (nextIter cmp fuel st).2.1
        (lastO lo (rowKeys (nextIter cmp fuel st).2.2)) ∧
      ChainO cmp lo (rowKeys (nextIter cmp fuel st).2.2) := by
  intro fuel
  induction fuel with
  | zero =>
    intro st lo hinv hlb
    refine ⟨hinv, ?_, chainO_nil cmp lo⟩
    show LB cmp st (lastO lo [])
    rw [lastO_nil]
    exact hlb
  | succ fuel ih =>
    intro st lo hinv hlb
    simp only [nextIter]
    by_cases hac : st.active = []
    · simp only [if_pos hac]
      by_cases hnt : st.tables.length ≤ st.nextTable
      · simp only [if_pos hnt]
        refine ⟨hinv, ?_, chainO_nil cmp lo⟩
        show LB cmp st (lastO lo [])
        rw [lastO_nil]
        exact hlb
      · simp only [if_neg hnt]
        push_neg at hnt
        apply ih
        · refine ⟨hinv.sorted, ?_, ?_, ?_⟩
          · have hsub : (st.tables.drop (st.nextTable + 1)).Sublist
                (st.tables.drop st.nextTable) := by
              rw [← List.drop_drop]
              exact List.drop_sublist 1 _
            exact hinv.suffix.sublist hsub
          · intro i hi
            rcases mem_insertSorted hi with h | h
            · show i < st.nextTable + 1
              omega
            · have := hinv.activeLt i h
              show i < st.nextTable + 1
              omega
          · show st.nextTable + 1 ≤ st.tables.length
            omega
        · constructor
          · intro i hi
            rcases mem_insertSorted hi with h | h
            · subst h
              exact hlb.2 st.nextTable (le_refl _) hnt
            · exact hlb.1 i h
          · intro j hj1 hj2
            have hj1' : st.nextTable ≤ j := le_trans (Nat.le_succ _) hj1
            exact hlb.2 j hj1' hj2
    · simp only [if_neg hac]
      obtain ⟨hinv', m, hm1, hm2, hm3⟩ :=
        nextRecord_spec cmp ht hf st lo hinv hlb hac
      by_cases hlive : (nextRecord cmp st).1 = true
      · simp only [hlive, if_true]
        refine ⟨hinv', ?_, ?_⟩
        · rw [hm1, lastO_cons, lastO_nil]
          exact hm3
        · rw [hm1]
          exact chainO_cons hm2 (chainO_nil cmp (some m))
      · have hfalse : (nextRecord cmp st).1 = false := by
          revert hlive
          cases (nextRecord cmp st).1 <;> simp
        simp only [hfalse, Bool.false_eq_true, if_false]
        have hih := ih (nextRecord cmp st).2.1 (some m) hinv' hm3
        refine ⟨hih.1, ?_, ?_⟩
        · rw [rowKeys_append, hm1, List.singleton_append, lastO_cons]
          exact hih.2.1
        · rw [rowKeys_append, hm1, List.singleton_append]
          exact chainO_cons hm2 hih.2.2

/-- Driving the iterator to exhaustion from an invariant, bounded state
yields a non-decreasing chain of row keys. -/
theorem runAll_chain (cmp : Cmp) (ht : CmpTrans cmp) (hf : CmpFlip cmp) :
    ∀ (fuel : Nat) (st : MState) (lo : Option Bytes),
      Inv cmp st → LB cmp st lo →
      ChainO cmp lo (rowKeys (runAll cmp fuel st).1) := by
  intro fuel
  induction fuel with
  | zero =>
    intro st lo hinv hlb
    exact chainO_nil cmp lo
  | succ fuel ih =>
    intro st lo hinv hlb
    have hni := nextIter_spec cmp ht hf (fuel + 1) st lo hinv hlb
    simp only [runAll]
    split
    · rw [rowKeys_append]
      exact chainO_append hni.2.2
        (ih (nextIter cmp (fuel + 1) st).2.1
          (lastO lo (rowKeys (nextIter cmp (fuel + 1) st).2.2))
          hni.1 hni.2.1)
    · exact hni.2.2

/-- C4.  Over a reader vector sorted by the partitioner order (each file
internally sorted, the files pairwise ordered on their first keys — the
`begin()` postcondition), the keys passed to `new_row` over a full run are
non-decreasing in the partitioner order. -/
theorem c4_monotone_new_row_keys (cmp : Cmp) (ht : CmpTrans cmp)
    (hf : CmpFlip cmp) (tables : List TState) (fuel : Nat)
    (hs : ∀ t ∈ tables, tSorted cmp t)
    (hp : List.Pairwise (fun a b => cmp a.nextKey b.nextKey ≤ 0) tables) :
    List.Chain' (fun a b => cmp a b ≤ 0)
      (rowKeys (runAll cmp fuel (initState tables)).1) := by
  have hinv : Inv cmp (initState tables) := by
    refine ⟨hs, ?_, ?_, Nat.zero_le _⟩
    · simpa using hp
    · intro i hi
      simp [initState] at hi
  have hlb : LB cmp (initState tables) none :=
    ⟨fun i _ => trivial, fun j _ _ => trivial⟩
  exact runAll_chain cmp ht hf fuel (initState tables) none hinv hlb

/-- Closed instance of `c4_monotone_new_row_keys`: two files with
interleaved partitions `1,3` and `2`; the run announces `1, 2, 3` in
order and the chain property holds. -/
theorem c4_monotone_new_row_keys_witness :
    (∀ t ∈ [(⟨⟨[1], STILL_ACTIVE, [plainCell [10] [65] 5]⟩,
        [⟨[3], STILL_ACTIVE, [plainCell [10] [66] 5]⟩]⟩ : TState),
      ⟨⟨[2], STILL_ACTIVE, [plainCell [10] [67] 5]⟩, []⟩],
        tSorted byteOrderCmp t) ∧
    List.Pairwise (fun a b => byteOrderCmp a.nextKey b.nextKey ≤ 0)
      [(⟨⟨[1], STILL_ACTIVE, [plainCell [10] [65] 5]⟩,
        [⟨[3], STILL_ACTIVE, [plainCell [10] [66] 5]⟩]⟩ : TState),
       ⟨⟨[2], STILL_ACTIVE, [plainCell [10] [67] 5]⟩, []⟩] ∧
    rowKeys (runAll byteOrderCmp 10 (initState
      [⟨⟨[1], STILL_ACTIVE, [plainCell [10] [65] 5]⟩,
        [⟨[3], STILL_ACTIVE, [plainCell [10] [66] 5]⟩]⟩,
       ⟨⟨[2], STILL_ACTIVE, [plainCell [10] [67] 5]⟩, []⟩])).1 =
      [[1], [2], [3]] ∧
    List.Chain' (fun a b => byteOrderCmp a b ≤ 0)
      (rowKeys (runAll byteOrderCmp 10 (initState
        [⟨⟨[1], STILL_ACTIVE, [plainCell [10] [65] 5]⟩,
          [⟨[3], STILL_ACTIVE, [plainCell [10] [66] 5]⟩]⟩,
         ⟨⟨[2], STILL_ACTIVE, [plainCell [10] [67] 5]⟩, []⟩])).1) :=
  ⟨by
     intro t htm
     simp only [tSorted, tKeys]
     rcases List.mem_cons.mp htm with rfl | htm
     · simp only [List.map_cons, List.map_nil, List.chain'_cons,
         List.chain'_singleton, and_true]
       decide
     · rcases List.mem_singleton.mp htm with rfl
       simp only [List.map_nil, List.chain'_singleton], by decide, by decide,
   c4_monotone_new_row_keys byteOrderCmp byteOrderCmp_trans byteOrderCmp_isFlip
     [⟨⟨[1], STILL_ACTIVE, [plainCell [10] [65] 5]⟩,
        [⟨[3], STILL_ACTIVE, [plainCell [10] [66] 5]⟩]⟩,
      ⟨⟨[2], STILL_ACTIVE, [plainCell [10] [67] 5]⟩, []⟩] 10
     (by
     intro t htm
     simp only [tSorted, tKeys]
     rcases List.mem_cons.mp htm with rfl | htm
     · simp only [List.map_cons, List.map_nil, List.chain'_cons,
         List.chain'_singleton, and_true]
       decide
     · rcases List.mem_singleton.mp htm with rfl
       simp only [List.map_nil, List.chain'_singleton]) (by decide)⟩

/-- One `iterator::next` step: nothing active, tables remain — activate the
next one. -/
theorem nextIter_step_activate (cmp : Cmp) (fuel : Nat) (st : MState)
    (hac : st.active = []) (hlen : ¬ st.tables.length ≤ st.nextTable) :
    nextIter cmp (fuel + 1) st =
      nextIter cmp fuel
        (activateTable { st with nextTable := st.nextTable + 1 } st.nextTable) := by
  simp only [nextIter]
  rw [if_pos hac, if_neg hlen]

theorem nextIter_step_live (cmp : Cmp) (fuel : Nat) (st : MState)
    (hac : ¬ st.active = []) (hnr : (nextRecord cmp st).1 = true) :
    nextIter cmp (fuel + 1) st =
      (true, (nextRecord cmp st).2.1, (nextRecord cmp st).2.2) := by
  simp only [nextIter]
  rw [if_neg hac, hnr]
  simp

theorem nextIter_step_end (cmp : Cmp) (fuel : Nat) (st : MState)
    (hac : st.active = []) (hlen : st.tables.length ≤ st.nextTable) :
    nextIter cmp (fuel + 1) st = (false, st, []) := by
  simp only [nextIter]
  rw [if_pos hac, if_pos hlen]

theorem runAll_step_true (cmp : Cmp) (fuel : Nat) (st : MState)
    (h : (nextIter cmp (fuel + 1) st).1 = true) :
    (runAll cmp (fuel + 1) st).1 =
      (nextIter cmp (fuel + 1) st).2.2 ++
        (runAll cmp fuel (nextIter cmp (fuel + 1) st).2.1).1 := by
  simp only [runAll]
  rw [h]
  simp

theorem runAll_step_false (cmp : Cmp) (fuel : Nat) (st : MState)
    (h : (nextIter cmp (fuel + 1) st).1 = false) :
    (runAll cmp (fuel + 1) st).1 = (nextIter cmp (fuel + 1) st).2.2 := by
  simp only [runAll]
  rw [h]
  simp

theorem runAll_four_glue (cmp : Cmp) (st st1 st2 st3 : MState)
    (e1 e2 e3 : List Event)
    (h0 : st.active = []) (hl : ¬ st.tables.length ≤ st.nextTable)
    (ha1 : ¬ (activateTable { st with nextTable := st.nextTable + 1 }
      st.nextTable).active = [])
    (h1 : nextRecord cmp (activateTable { st with nextTable := st.nextTable + 1 }
      st.nextTable) = (true, st1, e1))
    (ha2 : ¬ st1.active = []) (h2 : nextRecord cmp st1 = (true, st2, e2))
    (ha3 : ¬ st2.active = []) (h3 : nextRecord cmp st2 = (true, st3, e3))
    (hend : st3.active = []) (hlen3 : st3.tables.length ≤ st3.nextTable) :
    (runAll cmp 4 st).1 = e1 ++ (e2 ++ e3) := by
  have hni1 : nextIter cmp 4 st = (true, st1, e1) := by
    show nextIter cmp (3 + 1) st = _
    rw [nextIter_step_activate cmp 3 st h0 hl]
    show nextIter cmp (2 + 1) _ = _
    rw [nextIter_step_live cmp 2 _ ha1 (by rw [h1]), h1]
  have hni2 : nextIter cmp 3 st1 = (true, st2, e2) := by
    show nextIter cmp (2 + 1) st1 = _
    rw [nextIter_step_live cmp 2 st1 ha2 (by rw [h2]), h2]
  have hni3 : nextIter cmp 2 st2 = (true, st3, e3) := by
    show nextIter cmp (1 + 1) st2 = _
    rw [nextIter_step_live cmp 1 st2 ha3 (by rw [h3]), h3]
  have hni4 : nextIter cmp 1 st3 = (false, st3, []) := by
    show nextIter cmp (0 + 1) st3 = _
    exact nextIter_step_end cmp 0 st3 hend hlen3
  have hr1 : (runAll cmp 1 st3).1 = [] := by
    show (runAll cmp (0 + 1) st3).1 = _
    rw [runAll_step_false cmp 0 st3 (by rw [show (0:Nat) + 1 = 1 from rfl, hni4])]
    rw [show (0:Nat) + 1 = 1 from rfl, hni4]
  have hr2 : (runAll cmp 2 st2).1 = e3 := by
    show (runAll cmp (1 + 1) st2).1 = _
    rw [runAll_step_true cmp 1 st2 (by rw [show (1:Nat) + 1 = 2 from rfl, hni3])]
    rw [show (1:Nat) + 1 = 2 from rfl, hni3]
    show e3 ++ (runAll cmp 1 st3).1 = e3
    rw [hr1, List.append_nil]
  have hr3 : (runAll cmp 3 st1).1 = e2 ++ e3 := by
    show (runAll cmp (2 + 1) st1).1 = _
    rw [runAll_step_true cmp 2 st1 (by rw [show (2:Nat) + 1 = 3 from rfl, hni2])]
    rw [show (2:Nat) + 1 = 3 from rfl, hni2]
    show e2 ++ (runAll cmp 2 st2).1 = e2 ++ e3
    rw [hr2]
  show (runAll cmp (3 + 1) st).1 = _
  rw [runAll_step_true cmp 3 st (by rw [show (3:Nat) + 1 = 4 from rfl, hni1])]
  rw [show (3:Nat) + 1 = 4 from rfl, hni1]
  show e1 ++ (runAll cmp 3 st1).1 = e1 ++ (e2 ++ e3)
  rw [hr3]

theorem runAll_three_glue (cmp : Cmp) (st st1 st2 : MState)
    (e1 e2 : List Event)
    (h0 : st.active = []) (hl : ¬ st.tables.length ≤ st.nextTable)
    (ha1 : ¬ (activateTable { st with nextTable := st.nextTable + 1 }
      st.nextTable).active = [])
    (h1 : nextRecord cmp (activateTable { st with nextTable := st.nextTable + 1 }
      st.nextTable) = (true, st1, e1))
    (ha2 : ¬ st1.active = []) (h2 : nextRecord cmp st1 = (true, st2, e2))
    (hend : st2.active = []) (hlen : st2.tables.length ≤ st2.nextTable) :
    (runAll cmp 3 st).1 = e1 ++ e2 := by
  have hni1 : nextIter cmp 3 st = (true, st1, e1) := by
    show nextIter cmp (2 + 1) st = _
    rw [nextIter_step_activate cmp 2 st h0 hl]
    show nextIter cmp (1 + 1) _ = _
    rw [nextIter_step_live cmp 1 _ ha1 (by rw [h1]), h1]
  have hni2 : nextIter cmp 2 st1 = (true, st2, e2) := by
    show nextIter cmp (1 + 1) st1 = _
    rw [nextIter_step_live cmp 1 st1 ha2 (by rw [h2]), h2]
  have hni3 : nextIter cmp 1 st2 = (false, st2, []) := by
    show nextIter cmp (0 + 1) st2 = _
    exact nextIter_step_end cmp 0 st2 hend hlen
  have hr1 : (runAll cmp 1 st2).1 = [] := by
    show (runAll cmp (0 + 1) st2).1 = _
    rw [runAll_step_false cmp 0 st2 (by rw [show (0:Nat) + 1 = 1 from rfl, hni3])]
    rw [show (0:Nat) + 1 = 1 from rfl, hni3]
  have hr2 : (runAll cmp 2 st1).1 = e2 := by
    show (runAll cmp (1 + 1) st1).1 = _
    rw [runAll_step_true cmp 1 st1 (by rw [show (1:Nat) + 1 = 2 from rfl, hni2])]
    rw [show (1:Nat) + 1 = 2 from rfl, hni2]
    show e2 ++ (runAll cmp 1 st2).1 = e2
    rw [hr1, List.append_nil]
  show (runAll cmp (2 + 1) st).1 = _
  rw [runAll_step_true cmp 2 st (by rw [show (2:Nat) + 1 = 3 from rfl, hni1])]
  rw [show (2:Nat) + 1 = 3 from rfl, hni1]
  show e1 ++ (runAll cmp 2 st1).1 = e1 ++ e2
  rw [hr2]


set_option maxRecDepth 8000 in
set_option maxHeartbeats 1000000 in
/-- C8 (amended).  In the two-file scenario `c8FileA`/`c8FileB` (files
with first keys 1 and 5, sharing partition 9 where each holds a cell of
the same name), as long as the colliding timestamps differ, `find([5])`
exhausted yields exactly the suffix of `begin()`'s callback sequence from
the first partition at or after `[5]`.  (The unamended claim fails when
the timestamps tie: see the counterexample.) -/
theorem c8_find_is_begin_suffix_untied (vA vB : Bytes) (tA tB : Int) (h : tA ≠ tB) :
    (runAll byteOrderCmp 3
      (findIter byteOrderCmp [5] [c8FileA vA tA, c8FileB vB tB])).1 =
    traceSuffixFrom byteOrderCmp [5]
      (runAll byteOrderCmp 4
        (beginIter byteOrderCmp [c8FileA vA tA, c8FileB vB tB])).1 := by
  have hbeg : beginIter byteOrderCmp [c8FileA vA tA, c8FileB vB tB] =
      ⟨[⟨⟨[1], STILL_ACTIVE, [plainCell [10] [65] 7]⟩,
          [⟨[9], STILL_ACTIVE, [plainCell [20] vA tA]⟩]⟩,
        ⟨⟨[5], STILL_ACTIVE, [plainCell [10] [66] 7]⟩,
          [⟨[9], STILL_ACTIVE, [plainCell [20] vB tB]⟩]⟩], 0, [], 0, 0⟩ := rfl
  have hfnd : findIter byteOrderCmp [5] [c8FileA vA tA, c8FileB vB tB] =
      ⟨[⟨⟨[5], STILL_ACTIVE, [plainCell [10] [66] 7]⟩,
          [⟨[9], STILL_ACTIVE, [plainCell [20] vB tB]⟩]⟩,
        ⟨⟨[9], STILL_ACTIVE, [plainCell [20] vA tA]⟩, []⟩], 0, [], 0, 0⟩ := rfl
  have h1 : nextRecord byteOrderCmp
      (activateTable
        { (⟨[⟨⟨[1], STILL_ACTIVE, [plainCell [10] [65] 7]⟩,
              [⟨[9], STILL_ACTIVE, [plainCell [20] vA tA]⟩]⟩,
            ⟨⟨[5], STILL_ACTIVE, [plainCell [10] [66] 7]⟩,
              [⟨[9], STILL_ACTIVE, [plainCell [20] vB tB]⟩]⟩], 0, [], 0, 0⟩ : MState)
          with nextTable := 0 + 1 } 0) =
      (true,
       ⟨[⟨⟨[9], STILL_ACTIVE, [plainCell [20] vA tA]⟩, []⟩,
         ⟨⟨[5], STILL_ACTIVE, [plainCell [10] [66] 7]⟩,
           [⟨[9], STILL_ACTIVE, [plainCell [20] vB tB]⟩]⟩], 1, [0], 0, 1⟩,
       [Event.newRow [1], Event.newCol [10] [65] 7]) := rfl
  have h2 : nextRecord byteOrderCmp
      (⟨[⟨⟨[9], STILL_ACTIVE, [plainCell [20] vA tA]⟩, []⟩,
         ⟨⟨[5], STILL_ACTIVE, [plainCell [10] [66] 7]⟩,
           [⟨[9], STILL_ACTIVE, [plainCell [20] vB tB]⟩]⟩], 1, [0], 0, 1⟩ : MState) =
      (true,
       ⟨[⟨⟨[9], STILL_ACTIVE, [plainCell [20] vA tA]⟩, []⟩,
         ⟨⟨[9], STILL_ACTIVE, [plainCell [20] vB tB]⟩, []⟩], 2, [0, 1], 0, 2⟩,
       [Event.newRow [5], Event.newCol [10] [66] 7]) := rfl
  have g1 : nextRecord byteOrderCmp
      (activateTable
        { (⟨[⟨⟨[5], STILL_ACTIVE, [plainCell [10] [66] 7]⟩,
              [⟨[9], STILL_ACTIVE, [plainCell [20] vB tB]⟩]⟩,
            ⟨⟨[9], STILL_ACTIVE, [plainCell [20] vA tA]⟩, []⟩], 0, [], 0, 0⟩ : MState)
          with nextTable := 0 + 1 } 0) =
      (true,
       ⟨[⟨⟨[9], STILL_ACTIVE, [plainCell [20] vB tB]⟩, []⟩,
         ⟨⟨[9], STILL_ACTIVE, [plainCell [20] vA tA]⟩, []⟩], 1, [0], 0, 1⟩,
       [Event.newRow [5], Event.newCol [10] [66] 7]) := rfl
  rw [hbeg, hfnd]
  by_cases hlt : tA < tB
  · have hnlt : ¬ tB < tA := by omega
    have h3 : nextRecord byteOrderCmp
        (⟨[⟨⟨[9], STILL_ACTIVE, [plainCell [20] vA tA]⟩, []⟩,
           ⟨⟨[9], STILL_ACTIVE, [plainCell [20] vB tB]⟩, []⟩], 2, [0, 1], 0, 2⟩ : MState) =
        (true,
         ⟨[⟨⟨[9], STILL_ACTIVE, []⟩, []⟩, ⟨⟨[9], STILL_ACTIVE, []⟩, []⟩],
           2, [], 0, 3⟩,
         [Event.newRow [9], Event.newCol [20] vB tB]) := by
      simp [nextRecord, findFirstRowMatches, ffrmActive, ffrmOpenLoop, matchTable,
        activateTable, insertSorted, markedFold, colFuel, columnLoop, ffcm, ffcmStep,
        updateTombstones, tombInsertMax, maxUpdate, chooseLatest, emitTest, emitEvent,
        advanceMatched, advStep, removeSwap, deactivateTable, getT, setT, initState,
        TState.readColumn, TState.readRow, TState.nextColumn, TState.nextKey,
        TState.markedForDeletion, plainCell, emptyCell, byteOrderCmp, memCmpLen,
        strcmpM, strLt, hlt, hnlt]
    have g2 : nextRecord byteOrderCmp
        (⟨[⟨⟨[9], STILL_ACTIVE, [plainCell [20] vB tB]⟩, []⟩,
           ⟨⟨[9], STILL_ACTIVE, [plainCell [20] vA tA]⟩, []⟩], 1, [0], 0, 1⟩ : MState) =
        (true,
         ⟨[⟨⟨[9], STILL_ACTIVE, []⟩, []⟩, ⟨⟨[9], STILL_ACTIVE, []⟩, []⟩],
           2, [], 0, 2⟩,
         [Event.newRow [9], Event.newCol [20] vB tB]) := by
      simp [nextRecord, findFirstRowMatches, ffrmActive, ffrmOpenLoop, matchTable,
        activateTable, insertSorted, markedFold, colFuel, columnLoop, ffcm, ffcmStep,
        updateTombstones, tombInsertMax, maxUpdate, chooseLatest, emitTest, emitEvent,
        advanceMatched, advStep, removeSwap, deactivateTable, getT, setT, initState,
        TState.readColumn, TState.readRow, TState.nextColumn, TState.nextKey,
        TState.markedForDeletion, plainCell, emptyCell, byteOrderCmp, memCmpLen,
        strcmpM, strLt, hlt, hnlt]
    rw [runAll_four_glue byteOrderCmp _ _ _ _ _ _ _ rfl (by simp [activateTable, insertSorted])
        (by simp [activateTable, insertSorted]) h1 (by simp [activateTable, insertSorted]) h2
        (by simp [activateTable, insertSorted]) h3 rfl
        (by simp [activateTable, insertSorted])]
    rw [runAll_three_glue byteOrderCmp _ _ _ _ _ rfl (by simp [activateTable, insertSorted])
        (by simp [activateTable, insertSorted]) g1 (by simp [activateTable, insertSorted]) g2 rfl
        (by simp [activateTable, insertSorted])]
    simp [traceSuffixFrom, byteOrderCmp, memCmpLen]
  · have hgt : tB < tA := by omega
    have h3 : nextRecord byteOrderCmp
        (⟨[⟨⟨[9], STILL_ACTIVE, [plainCell [20] vA tA]⟩, []⟩,
           ⟨⟨[9], STILL_ACTIVE, [plainCell [20] vB tB]⟩, []⟩], 2, [0, 1], 0, 2⟩ : MState) =
        (true,
         ⟨[⟨⟨[9], STILL_ACTIVE, []⟩, []⟩, ⟨⟨[9], STILL_ACTIVE, []⟩, []⟩],
           2, [], 0, 3⟩,
         [Event.newRow [9], Event.newCol [20] vA tA]) := by
      simp [nextRecord, findFirstRowMatches, ffrmActive, ffrmOpenLoop, matchTable,
        activateTable, insertSorted, markedFold, colFuel, columnLoop, ffcm, ffcmStep,
        updateTombstones, tombInsertMax, maxUpdate, chooseLatest, emitTest, emitEvent,
        advanceMatched, advStep, removeSwap, deactivateTable, getT, setT, initState,
        TState.readColumn, TState.readRow, TState.nextColumn, TState.nextKey,
        TState.markedForDeletion, plainCell, emptyCell, byteOrderCmp, memCmpLen,
        strcmpM, strLt, hlt, hgt]
    have g2 : nextRecord byteOrderCmp
        (⟨[⟨⟨[9], STILL_ACTIVE, [plainCell [20] vB tB]⟩, []⟩,
           ⟨⟨[9], STILL_ACTIVE, [plainCell [20] vA tA]⟩, []⟩], 1, [0], 0, 1⟩ : MState) =
        (true,
         ⟨[⟨⟨[9], STILL_ACTIVE, []⟩, []⟩, ⟨⟨[9], STILL_ACTIVE, []⟩, []⟩],
           2, [], 0, 2⟩,
         [Event.newRow [9], Event.newCol [20] vA tA]) := by
      simp [nextRecord, findFirstRowMatches, ffrmActive, ffrmOpenLoop, matchTable,
        activateTable, insertSorted, markedFold, colFuel, columnLoop, ffcm, ffcmStep,
        updateTombstones, tombInsertMax, maxUpdate, chooseLatest, emitTest, emitEvent,
        advanceMatched, advStep, removeSwap, deactivateTable, getT, setT, initState,
        TState.readColumn, TState.readRow, TState.nextColumn, TState.nextKey,
        TState.markedForDeletion, plainCell, emptyCell, byteOrderCmp, memCmpLen,
        strcmpM, strLt, hlt, hgt]
    rw [runAll_four_glue byteOrderCmp _ _ _ _ _ _ _ rfl (by simp [activateTable, insertSorted])
        (by simp [activateTable, insertSorted]) h1 (by simp [activateTable, insertSorted]) h2
        (by simp [activateTable, insertSorted]) h3 rfl
        (by simp [activateTable, insertSorted])]
    rw [runAll_three_glue byteOrderCmp _ _ _ _ _ rfl (by simp [activateTable, insertSorted])
        (by simp [activateTable, insertSorted]) g1 (by simp [activateTable, insertSorted]) g2 rfl
        (by simp [activateTable, insertSorted])]
    simp [traceSuffixFrom, byteOrderCmp, memCmpLen]


/-- C8 counterexample.  Same two files with the partition-9 cells tied on
timestamp (both 7): `find([5])` delivers file 2's value `[66]` at the
collision (scan order after re-sorting starts at file 2), while the
`begin()` suffix delivers file 1's value `[65]` — the suffix property
fails on timestamp ties because `std::sort` ordered the two runs'
readers differently and `choose_latest_match` keeps the first match on
ties. -/
theorem c8_tie_breaks_find_suffix :
    (runAll byteOrderCmp 3
      (findIter byteOrderCmp [5] [c8FileA [65] 7, c8FileB [66] 7])).1 =
      [Event.newRow [5], Event.newCol [10] [66] 7,
       Event.newRow [9], Event.newCol [20] [66] 7] ∧
    traceSuffixFrom byteOrderCmp [5]
      (runAll byteOrderCmp 4
        (beginIter byteOrderCmp [c8FileA [65] 7, c8FileB [66] 7])).1 =
      [Event.newRow [5], Event.newCol [10] [66] 7,
       Event.newRow [9], Event.newCol [20] [65] 7] ∧
    (runAll byteOrderCmp 3
      (findIter byteOrderCmp [5] [c8FileA [65] 7, c8FileB [66] 7])).1 ≠
    traceSuffixFrom byteOrderCmp [5]
      (runAll byteOrderCmp 4
        (beginIter byteOrderCmp [c8FileA [65] 7, c8FileB [66] 7])).1 := by
  refine ⟨by decide, by decide, by decide⟩

/-- Closed instance of `c8_find_is_begin_suffix_untied` at timestamps 3
and 4. -/
theorem c8_find_is_begin_suffix_untied_witness :
    ((3 : Int) ≠ 4) ∧
    ((runAll byteOrderCmp 3
      (findIter byteOrderCmp [5] [c8FileA [65] 3, c8FileB [66] 4])).1 =
    traceSuffixFrom byteOrderCmp [5]
      (runAll byteOrderCmp 4
        (beginIter byteOrderCmp [c8FileA [65] 3, c8FileB [66] 4])).1) :=
  ⟨by decide, c8_find_is_begin_suffix_untied [65] [66] 3 4 (by decide)⟩

end C2A
